import Mathlib

/-!
# Verification of the expense-tracker core (`expense_manager.py`, `enhanced_ui.py`)

A shallow embedding of the data model and operations of the Python
expense tracker.  Monetary amounts are modelled as integer cents
(the system stores amounts with exactly two fractional digits at rest:
the UI quantizes every entered amount to `0.01` before handing it to the
manager).  Python `Decimal` string parsing, `str.lower`, `str.strip`,
string comparison, and `datetime.strptime` with the `%Y-%m-%d` format
are modelled explicitly on lists of characters.  Python dicts that the
code iterates over are modelled as insertion-ordered association lists.
-/

namespace ExpenseTracker

/-! ## Characters and digit strings -/

/-- ASCII whitespace, as stripped by Python's `str.strip`. -/
def isPyWs (c : Char) : Bool :=
  c = ' ' || c = '\t' || c = '\n' || c = '\r' || c = '\x0b' || c = '\x0c'

/-- Decimal digit test (Python regex `\d` on ASCII input):
code point between `'0'` (48) and `'9'` (57). -/
def isDigit (c : Char) : Bool :=
  48 ≤ c.toNat && c.toNat ≤ 57

/-- Value of a digit character. -/
def digitVal (c : Char) : Nat :=
  c.toNat - 48

/-- The digit character for `d < 10`. -/
def digitChar (d : Nat) : Char :=
  Char.ofNat (48 + d)

/-- Decimal digits of `n`, most significant first, with explicit fuel
(structural recursion so the kernel can evaluate it). -/
def natToCharsAux (fuel n : Nat) : List Char :=
  match fuel with
  | 0 => []
  | fuel + 1 =>
    if n < 10 then [digitChar n]
    else natToCharsAux fuel (n / 10) ++ [digitChar (n % 10)]

/-- Decimal digits of `n`, most significant first (as Python `str(n)`). -/
def natToChars (n : Nat) : List Char :=
  natToCharsAux (n + 1) n

/-- Numeric value of a digit list, most significant first. -/
def digitsVal (l : List Char) : Nat :=
  l.foldl (fun acc c => 10 * acc + digitVal c) 0

/-- Two-digit zero-padded rendering of `n < 100`. -/
def pad2 (n : Nat) : List Char :=
  [digitChar (n / 10), digitChar (n % 10)]

/-- Four-digit zero-padded rendering of `n < 10000`. -/
def pad4 (n : Nat) : List Char :=
  [digitChar (n / 1000), digitChar (n / 100 % 10), digitChar (n / 10 % 10), digitChar (n % 10)]

/-! ## Date validation: `datetime.strptime(date_str, "%Y-%m-%d")`

`strptime` matches `%Y` against exactly four digits, `%m` against
`1[0-2]|0[1-9]|[1-9]` (one or two digits, value 1–12) and `%d` against
`3[01]|[12]\d|0[1-9]|[1-9]` (one or two digits, value 1–31), requires
the whole input to be consumed, and then `datetime(y, m, d)` checks
`1 ≤ y` and that `d` does not exceed the length of month `m` of year
`y` (Gregorian leap rule). -/

def isLeapYear (y : Nat) : Bool :=
  (y % 4 == 0 && y % 100 != 0) || y % 400 == 0

def daysInMonth (y m : Nat) : Nat :=
  if m = 2 then (if isLeapYear y then 29 else 28)
  else if m = 4 ∨ m = 6 ∨ m = 9 ∨ m = 11 then 30
  else 31

/-- Parse `Y-M-D` where each part is a maximal run of digits; returns the
part values; the part lengths are constrained as by the `strptime` format
(`%Y` exactly four digits, `%m` and `%d` one or two). -/
def parseDate (cs : List Char) : Option (Nat × Nat × Nat) :=
  match cs.dropWhile isDigit with
  | '-' :: r2 =>
    match r2.dropWhile isDigit with
    | '-' :: r4 =>
      if r4.dropWhile isDigit = [] ∧ (cs.takeWhile isDigit).length = 4 ∧
          ((r2.takeWhile isDigit).length = 1 ∨ (r2.takeWhile isDigit).length = 2) ∧
          ((r4.takeWhile isDigit).length = 1 ∨ (r4.takeWhile isDigit).length = 2) then
        some (digitsVal (cs.takeWhile isDigit), digitsVal (r2.takeWhile isDigit),
          digitsVal (r4.takeWhile isDigit))
      else none
    | _ => none
  | _ => none

/-- `ExpenseManager.validate_date` under the default config format `%Y-%m-%d`. -/
def validateDate (s : String) : Bool :=
  match parseDate s.data with
  | some (y, m, d) => 1 ≤ y && 1 ≤ m && m ≤ 12 && 1 ≤ d && d ≤ daysInMonth y m
  | none => false

/-- The canonical zero-padded rendering `YYYY-MM-DD`. -/
def mkDateStr (y m d : Nat) : String :=
  ⟨pad4 y ++ '-' :: (pad2 m ++ '-' :: pad2 d)⟩

/-- Whether a string has the exact zero-padded `YYYY-MM-DD` shape. -/
def isPaddedDate (s : String) : Bool :=
  match s.data with
  | [y1, y2, y3, y4, '-', m1, m2, '-', d1, d2] =>
    isDigit y1 && isDigit y2 && isDigit y3 && isDigit y4 &&
    isDigit m1 && isDigit m2 && isDigit d1 && isDigit d2
  | _ => false

/-- Python string `<=` (lexicographic by code point), as used by
`search_expenses` on date strings. -/
def lexLe : List Char → List Char → Bool
  | [], _ => true
  | _ :: _, [] => false
  | a :: as, b :: bs => if a = b then lexLe as bs else decide (a.toNat < b.toNat)

/-- The `(year, month, day)` triple a date string denotes, via `parseDate`. -/
def dateOf (s : String) : Nat × Nat × Nat :=
  (parseDate s.data).getD (0, 0, 0)

/-- Chronological (calendar) order on `(year, month, day)` triples. -/
def chronoLe (a b : Nat × Nat × Nat) : Prop :=
  a.1 < b.1 ∨ (a.1 = b.1 ∧ (a.2.1 < b.2.1 ∨ (a.2.1 = b.2.1 ∧ a.2.2 ≤ b.2.2)))

instance (a b : Nat × Nat × Nat) : Decidable (chronoLe a b) := by
  unfold chronoLe
  infer_instance

/-- Number of Gregorian leap years in `1..y`. -/
def leapsBefore (y : Nat) : Nat :=
  y / 4 - y / 100 + y / 400

/-- Days of year `y` strictly before month `m` (months `1..m-1`). -/
def daysBeforeMonth (y m : Nat) : Nat :=
  match m with
  | 0 => 0
  | 1 => 0
  | m + 1 => daysBeforeMonth y m + daysInMonth y m

/-- Rata-die style day count of a calendar date: days elapsed from a fixed
origin up to and including `(y, m, d)`.  Chronological order of valid
dates is the order of these counts. -/
def dayNumber (y m d : Nat) : Nat :=
  365 * (y - 1) + leapsBefore (y - 1) + daysBeforeMonth y m + d

/-! ## Python `decimal.Decimal` construction from a string

`Decimal.__new__` strips whitespace, removes all underscores, and then
matches `[+-]? ( \d*(\.\d*)? (E[+-]?\d+)? | Inf(inity)? | sNaN\d* | NaN\d* )`
case-insensitively, requiring at least one digit in the coefficient; a
non-match raises `decimal.InvalidOperation` (an `ArithmeticError`, not a
`ValueError`). -/

/-- Lowercase an ASCII letter (how `re.IGNORECASE` matches `Inf`/`NaN`/`E`). -/
def asciiLower (c : Char) : Char :=
  if 65 ≤ c.toNat ∧ c.toNat ≤ 90 then Char.ofNat (c.toNat + 32) else c

/-- `str.strip` on a character list. -/
def stripWsList (l : List Char) : List Char :=
  ((l.dropWhile isPyWs).reverse.dropWhile isPyWs).reverse

/-- The value carried by a Python `Decimal`: a finite signed coefficient
with a power-of-ten exponent (value `(-1)^neg * coeff * 10^exp`), a signed
infinity, or a NaN. -/
inductive PyDecVal where
  | finite (neg : Bool) (coeff : Nat) (exp : Int)
  | infinite (neg : Bool)
  | nan
deriving DecidableEq, Repr

/-- Consume an optional leading sign. -/
def parseSign : List Char → Bool × List Char
  | [] => (false, [])
  | c :: r => if c = '-' then (true, r) else if c = '+' then (false, r) else (false, c :: r)

/-- Parse the `[+-]?\d+` of an exponent, requiring the whole rest consumed. -/
def parseExpTail (cs : List Char) : Option Int :=
  let p := parseSign cs
  let ds := p.2.takeWhile isDigit
  if ds = [] ∨ p.2.dropWhile isDigit ≠ [] then none
  else some (if p.1 then -(digitsVal ds : Int) else (digitsVal ds : Int))

/-- Parse the numeric alternative `\d*(\.\d*)?(E[+-]?\d+)?` (at least one
coefficient digit), after the sign has been consumed. -/
def parseNumericTail (neg : Bool) (cs : List Char) : Option PyDecVal :=
  let I := cs.takeWhile isDigit
  match cs.dropWhile isDigit with
  | [] => if I = [] then none else some (.finite neg (digitsVal I) 0)
  | '.' :: r2 =>
    let F := r2.takeWhile isDigit
    if I = [] ∧ F = [] then none
    else
      match r2.dropWhile isDigit with
      | [] => some (.finite neg (digitsVal (I ++ F)) (-(F.length : Int)))
      | e :: r4 =>
        if asciiLower e = 'e' then
          match parseExpTail r4 with
          | some ev => some (.finite neg (digitsVal (I ++ F)) (ev - (F.length : Int)))
          | none => none
        else none
  | e :: r4 =>
    if asciiLower e = 'e' ∧ I ≠ [] then
      match parseExpTail r4 with
      | some ev => some (.finite neg (digitsVal I) ev)
      | none => none
    else none

/-- `decimal.Decimal(s)` for a string argument: `some` value on success,
`none` when the construction raises `InvalidOperation`. -/
def pyDecimalOfString (s : String) : Option PyDecVal :=
  let cs := (stripWsList s.data).filter (fun c => c != '_')
  let p := parseSign cs
  let low := p.2.map asciiLower
  if low = ['i', 'n', 'f'] ∨ low = ['i', 'n', 'f', 'i', 'n', 'i', 't', 'y'] then
    some (.infinite p.1)
  else if (low.take 3 = ['n', 'a', 'n'] ∧ (low.drop 3).all isDigit) ∨
      (low.take 4 = ['s', 'n', 'a', 'n'] ∧ (low.drop 4).all isDigit) then
    some .nan
  else parseNumericTail p.1 p.2

/-- `ExpenseManager.validate_amount`: `Decimal(amount_str) > 0` inside a
`try` that catches only `ValueError`/`TypeError`.  `InvalidOperation`
raised by the conversion (bad numeral) or by the comparison (NaN) is NOT
caught and propagates; that uncaught exception is the `.error` case. -/
def validateAmount (s : String) : Except String Bool :=
  match pyDecimalOfString s with
  | none => .error "InvalidOperation"
  | some .nan => .error "InvalidOperation"
  | some (.infinite neg) => .ok (neg = false)
  | some (.finite neg coeff _) => .ok (neg = false ∧ coeff ≠ 0)

/-! ## Amounts at rest: integer cents

Amounts at rest carry exactly two fractional digits (the UI quantizes every
input to `Decimal('0.01')` before storing), so in-memory amounts are
modelled as integer cents.  `str(amount)` for such a value renders
`[-]<units>.<2-digit cents>`. -/

/-- `str` of a two-fractional-digit `Decimal` holding `c` cents. -/
def centsToChars (c : Int) : List Char :=
  (if c < 0 then ['-'] else []) ++
    natToChars (c.natAbs / 100) ++ '.' :: pad2 (c.natAbs % 100)

def centsToString (c : Int) : String :=
  ⟨centsToChars c⟩

/-- Scale a coefficient with exponent `e` to whole cents, exactly. -/
def decScaleCents (c : Nat) (e : Int) : Option Nat :=
  if 0 ≤ e + 2 then some (c * 10 ^ (e + 2).toNat)
  else if c % 10 ^ (-(e + 2)).toNat = 0 then some (c / 10 ^ (-(e + 2)).toNat) else none

/-- Exact conversion of a parsed `Decimal` value to cents (the value a
record loaded from a file produced by `save_expenses` holds). -/
def decToCents : PyDecVal → Option Int
  | .finite neg c e =>
    match decScaleCents c e with
    | some m => some (if neg then -(m : Int) else (m : Int))
    | none => none
  | _ => none

/-- Division rounding to nearest with ties to even (Python decimal's
default context rounding, `ROUND_HALF_EVEN`). -/
def halfEvenDivNat (c d : Nat) : Nat :=
  if 2 * (c % d) < d then c / d
  else if d < 2 * (c % d) then c / d + 1
  else if (c / d) % 2 = 0 then c / d else c / d + 1

/-- The coefficient (magnitude, in cents) a finite decimal quantizes to
at exponent `-2` under `ROUND_HALF_EVEN`. -/
def quantMag (c : Nat) (e : Int) : Nat :=
  if 0 ≤ e + 2 then c * 10 ^ (e + 2).toNat
  else halfEvenDivNat c (10 ^ (-(e + 2)).toNat)

/-- `Decimal.quantize(Decimal('0.01'))` under the default context
(`ROUND_HALF_EVEN`, precision 28), as cents.  Quantize signals
`InvalidOperation` — trapped by default, so raised — when the result
coefficient would exceed the context precision (29 or more digits,
i.e. at least `10 ^ 28`), and on infinities.  A NaN never reaches this
call in the add/edit flows: `validate_amount` already raised on it, so
mapping it to the error outcome here loses nothing. -/
def quantize2 : PyDecVal → Option Int
  | .finite neg c e =>
    if quantMag c e < 10 ^ 28 then
      some (if neg then -(quantMag c e : Int) else (quantMag c e : Int))
    else none
  | _ => none

/-- The UI's `Decimal(amount_str).quantize(Decimal('0.01'))` in
`ExpenseUI.add_expense` / `ExpenseUI.edit_expense`; `none` is an
uncaught exception (conversion failure or quantize overflow). -/
def uiQuantize (s : String) : Option Int :=
  match pyDecimalOfString s with
  | some v => quantize2 v
  | none => none

/-! ## The record store: `Expense` and the mutating operations -/

/-- One expense record (`@dataclass Expense`); `amount` in cents. -/
structure Expense where
  date : String
  category : String
  amount : Int
  description : String
deriving DecidableEq, Repr

/-- `str.lower` (ASCII model). -/
def pyLower (s : String) : String :=
  ⟨s.data.map asciiLower⟩

/-- `str.strip`. -/
def pyStrip (s : String) : String :=
  ⟨stripWsList s.data⟩

/-- `ExpenseManager.add_expense`: validate the date, then
`validate_amount(str(amount))`, then append
`Expense(date_str, category.lower().strip(), amount, description.strip())`.
An uncaught exception from `validate_amount` is the `.error` case. -/
def addExpense (es : List Expense) (dateStr category : String) (amount : Int)
    (description : String) : Except String (Bool × List Expense) :=
  if validateDate dateStr then
    match validateAmount (centsToString amount) with
    | .error ex => .error ex
    | .ok false => .ok (false, es)
    | .ok true =>
      .ok (true, es ++ [⟨dateStr, pyStrip (pyLower category), amount, pyStrip description⟩])
  else .ok (false, es)

/-- `ExpenseManager.edit_expense`: bounds check first, then the same
validation, then replace the record at `index` wholesale. -/
def editExpense (es : List Expense) (index : Int) (dateStr category : String)
    (amount : Int) (description : String) : Except String (Bool × List Expense) :=
  if 0 ≤ index ∧ index < es.length then
    if validateDate dateStr then
      match validateAmount (centsToString amount) with
      | .error ex => .error ex
      | .ok false => .ok (false, es)
      | .ok true =>
        .ok (true, es.set index.toNat
          ⟨dateStr, pyStrip (pyLower category), amount, pyStrip description⟩)
    else .ok (false, es)
  else .ok (false, es)

/-- `ExpenseManager.delete_expense`: `del self.expenses[index]` when
`0 <= index < len`, else `False`. -/
def deleteExpense (es : List Expense) (index : Int) : Bool × List Expense :=
  if 0 ≤ index ∧ index < es.length then (true, es.eraseIdx index.toNat)
  else (false, es)

/-! ## Persistence: `save_expenses` / `load_expenses`

The CSV layer is modelled at row granularity (a file is a list of rows,
each row a list of string fields): Python's `csv` module round-trips
arbitrary field strings.  `save_expenses` writes the header row and one
row per record via `Expense.to_dict` (amount via `str`); `load_expenses`
reads each row back, converting the amount with `Decimal(row['amount'])`
(a failure there aborts the whole load). -/

def expenseToRow (e : Expense) : List String :=
  [e.date, e.category, centsToString e.amount, e.description]

def headerRow : List String :=
  ["date", "category", "amount", "description"]

def saveExpenses (es : List Expense) : List (List String) :=
  headerRow :: es.map expenseToRow

def loadRow (r : List String) : Option Expense :=
  match r with
  | [d, cat, amt, desc] =>
    match pyDecimalOfString amt with
    | some v =>
      match decToCents v with
      | some cents => some ⟨d, cat, cents, desc⟩
      | none => none
    | none => none
  | _ => none

def loadExpenses (rows : List (List String)) : Option (List Expense) :=
  match rows with
  | [] => some []
  | h :: rest => if h = headerRow then rest.mapM loadRow else none

/-! ## Searching: `ExpenseManager.search_expenses` -/

/-- Prefix test on character lists. -/
def startsWithChars : List Char → List Char → Bool
  | [], _ => true
  | _ :: _, [] => false
  | a :: as, b :: bs => a = b && startsWithChars as bs

/-- Contiguous-substring test on character lists. -/
def isSubChars (needle hay : List Char) : Bool :=
  match hay with
  | [] => needle.isEmpty
  | _ :: bs => startsWithChars needle hay || isSubChars needle bs

/-- Python substring test `needle in hay`. -/
def pySubstr (needle hay : String) : Bool :=
  isSubChars needle.data hay.data

/-- `Decimal` value `v` compared against a cents amount: `v ≤ cents/100`;
`none` models the `InvalidOperation` a NaN comparison raises. -/
def decLeCents (v : PyDecVal) (cents : Int) : Option Bool :=
  match v with
  | .nan => none
  | .infinite neg => some neg
  | .finite neg c e =>
    let sc : Int := if neg then -(c : Int) else (c : Int)
    if 0 ≤ e then some (decide (sc * 10 ^ e.toNat * 100 ≤ cents))
    else some (decide (sc * 100 ≤ cents * 10 ^ (-e).toNat))

/-- `cents/100 ≤ v`, same conventions. -/
def centsLeDec (cents : Int) (v : PyDecVal) : Option Bool :=
  match v with
  | .nan => none
  | .infinite neg => some !neg
  | .finite neg c e =>
    let sc : Int := if neg then -(c : Int) else (c : Int)
    if 0 ≤ e then some (decide (cents ≤ sc * 10 ^ e.toNat * 100))
    else some (decide (cents * 10 ^ (-e).toNat ≤ sc * 100))

/-- Filter with a partial predicate: the first `none` (a raised exception
inside the list comprehension) aborts the whole filter. -/
def filterExc (p : α → Option Bool) : List α → Option (List α)
  | [] => some []
  | a :: l =>
    match p a with
    | none => none
    | some b =>
      match filterExc p l with
      | some r => some (if b then a :: r else r)
      | none => none

/-- `ExpenseManager.search_expenses`: six optional criteria (empty string =
absent), applied as successive narrowing filters; a `Decimal` conversion
failure or a NaN comparison raises (the `none` result). -/
def searchExpenses (es : List Expense)
    (keyword category startDate endDate minAmount maxAmount : String) :
    Option (List Expense) :=
  let l1 := if keyword ≠ "" then
      es.filter (fun e => pySubstr (pyLower keyword) (pyLower e.description) ||
        pySubstr (pyLower keyword) (pyLower e.category))
    else es
  let l2 := if category ≠ "" then
      l1.filter (fun e => pyLower e.category == pyLower category)
    else l1
  let l3 := if startDate ≠ "" then
      l2.filter (fun e => lexLe startDate.data e.date.data)
    else l2
  let l4 := if endDate ≠ "" then
      l3.filter (fun e => lexLe e.date.data endDate.data)
    else l3
  let l5 := if minAmount ≠ "" then
      (pyDecimalOfString minAmount).bind (fun v => filterExc (fun e => decLeCents v e.amount) l4)
    else some l4
  l5.bind (fun l5' =>
    if maxAmount ≠ "" then
      (pyDecimalOfString maxAmount).bind (fun v => filterExc (fun e => centsLeDec e.amount v) l5')
    else some l5')

/-! ## Reports and budgets -/

/-- The configuration document's nested budget map
`month -> category -> limit-string` (`set_budget` stores `str(limit)`). -/
structure Config where
  budgets : List (String × List (String × String))
deriving DecidableEq, Repr

/-- First-match association-list lookup (Python dict indexing). -/
def alookup : List (String × α) → String → Option α
  | [], _ => none
  | (k, v) :: r, key => if k = key then some v else alookup r key

/-- Add `amt` to `cat`'s sum, inserting at the end if absent
(Python dict insertion-order update). -/
def addToCats (cats : List (String × Int)) (cat : String) (amt : Int) :
    List (String × Int) :=
  if (alookup cats cat).isSome then
    cats.map (fun p => if p.1 = cat then (p.1, p.2 + amt) else p)
  else cats ++ [(cat, amt)]

/-- The per-category sums loop of `get_monthly_report`. -/
def monthlyCategories (monthly : List Expense) : List (String × Int) :=
  monthly.foldl (fun acc e => addToCats acc e.category e.amount) []

/-- One row of the budget-status mapping; monetary values exact
(`Decimal` arithmetic on these inputs is exact), `percentage` kept as the
exact quotient. -/
structure BudgetStatus where
  limit : ℚ
  spent : ℚ
  remaining : ℚ
  percentage : ℚ
deriving DecidableEq, Repr

/-- The value of a finite `Decimal`. -/
def decimalToQ (neg : Bool) (c : Nat) (e : Int) : ℚ :=
  (if neg then -1 else 1) * (c : ℚ) * (10 : ℚ) ^ e

/-- The contents of a monthly report dict.  `budgetStatus = none` models the
empty-month report, which carries NO `budget_status` key. -/
structure Report where
  total : Int
  categories : List (String × Int)
  expenses : List Expense
  budgetStatus : Option (List (String × BudgetStatus))
deriving DecidableEq, Repr

/-- The per-category loop of `_get_budget_status`, given the report the
inner `get_monthly_report` call returned: `limit = Decimal(limit_str)`,
`spent = categories.get(category, 0)`, `remaining = limit - spent`,
`percentage = spent/limit*100 if limit > 0 else 0`.  A non-finite or
unparsable limit string raises (`none`). -/
def budgetStatusCore (bcats : List (String × String)) (rep : Report) :
    Option (List (String × BudgetStatus)) :=
  bcats.mapM (fun p =>
    match pyDecimalOfString p.2 with
    | some (.finite neg c e) =>
      let limit : ℚ := decimalToQ neg c e
      let spent : ℚ := ((alookup rep.categories p.1).getD 0 : Int) / 100
      some (p.1, ⟨limit, spent, limit - spent,
        if 0 < limit then spent / limit * 100 else 0⟩)
    | _ => none)

/-- `ExpenseManager.get_monthly_report`, with the mutually recursive
`_get_budget_status` call inlined and a fuel bound on the recursion depth
(Python's recursion limit): `none` means the call does not return
(`RecursionError`).  `get_monthly_report` filters by date prefix, returns
the zero/empty report without a `budget_status` key when nothing matches,
and otherwise computes total, category sums and the budget status — which
itself calls `get_monthly_report` for the same month again. -/
def getMonthlyReportF : Nat → Config → List Expense → String → Option Report
  | 0, _, _, _ => none
  | fuel + 1, cfg, es, month =>
    let monthly := es.filter (fun e => startsWithChars month.data e.date.data)
    if monthly.isEmpty then some ⟨0, [], [], none⟩
    else
      match alookup cfg.budgets month with
      | none =>
        some ⟨(monthly.map Expense.amount).sum, monthlyCategories monthly, monthly, some []⟩
      | some bcats =>
        match getMonthlyReportF fuel cfg es month with
        | none => none
        | some rep =>
          match budgetStatusCore bcats rep with
          | none => none
          | some bs =>
            some ⟨(monthly.map Expense.amount).sum, monthlyCategories monthly, monthly, some bs⟩

/-- `ExpenseManager._get_budget_status`: empty mapping when the month has
no budgets, else it calls `get_monthly_report` for the month and builds
the per-category status rows. -/
def getBudgetStatusF (fuel : Nat) (cfg : Config) (es : List Expense) (month : String) :
    Option (List (String × BudgetStatus)) :=
  match alookup cfg.budgets month with
  | none => some []
  | some bcats =>
    match getMonthlyReportF fuel cfg es month with
    | none => none
    | some rep => budgetStatusCore bcats rep

/-! ## Budget deletion (`ExpenseUI.manage_budgets`, `delete` action) -/

/-- Remove every entry with key `k` (`del d[k]`; dict keys are unique). -/
def eraseKey (k : String) (l : List (String × α)) : List (String × α) :=
  l.filter (fun p => p.1 != k)

/-- Replace the value stored at key `k`, keeping position. -/
def updateVal (k : String) (v : α) (l : List (String × α)) : List (String × α) :=
  l.map (fun p => if p.1 = k then (k, v) else p)

/-- The two-level lookup `config["budgets"][month][category]`. -/
def pathLookup (b : List (String × List (String × String))) (month category : String) :
    Option String :=
  (alookup b month).bind (fun cs => alookup cs category)

/-- The budget-deletion action: if `month` and `category` are present,
delete the leaf, delete the month entry too if its mapping became empty,
and report success; otherwise report "not found" and change nothing. -/
def deleteBudget (b : List (String × List (String × String))) (month category : String) :
    Bool × List (String × List (String × String)) :=
  match alookup b month with
  | none => (false, b)
  | some cats =>
    if (alookup cats category).isSome then
      let cats' := eraseKey category cats
      if cats' = [] then (true, eraseKey month b)
      else (true, updateVal month cats' b)
    else (false, b)


theorem digitChar_isDigit {d : Nat} (h : d < 10) : isDigit (digitChar d) = true := by
  interval_cases d <;> decide

theorem digitVal_digitChar {d : Nat} (h : d < 10) : digitVal (digitChar d) = d := by
  interval_cases d <;> decide

theorem natToCharsAux_irrel (f1 : Nat) : ∀ n, n < f1 → ∀ f2, n < f2 →
    natToCharsAux f1 n = natToCharsAux f2 n := by
  induction f1 with
  | zero => intro n hn; omega
  | succ f ih =>
    intro n hn f2 hn2
    cases f2 with
    | zero => omega
    | succ g =>
      show natToCharsAux (f + 1) n = natToCharsAux (g + 1) n
      rw [natToCharsAux, natToCharsAux]
      by_cases h10 : n < 10
      · rw [if_pos h10, if_pos h10]
      · rw [if_neg h10, if_neg h10]
        have hdiv1 : n / 10 < f := by omega
        have hdiv2 : n / 10 < g := by omega
        rw [ih (n / 10) hdiv1 g hdiv2]

theorem natToChars_eq (n : Nat) : natToChars n =
    if n < 10 then [digitChar n] else natToChars (n / 10) ++ [digitChar (n % 10)] := by
  show natToCharsAux (n + 1) n = _
  rw [natToCharsAux]
  by_cases h10 : n < 10
  · rw [if_pos h10, if_pos h10]
  · rw [if_neg h10, if_neg h10]
    show natToCharsAux n (n / 10) ++ _ = natToCharsAux (n / 10 + 1) (n / 10) ++ _
    rw [natToCharsAux_irrel n (n / 10) (by omega) (n / 10 + 1) (by omega)]

theorem natToChars_all_digits (n : Nat) : ∀ c ∈ natToChars n, isDigit c = true := by
  induction n using Nat.strong_induction_on with
  | _ n ih =>
    rw [natToChars_eq]
    split
    · intro c hc
      simp only [List.mem_singleton] at hc
      subst hc
      exact digitChar_isDigit (by omega)
    · intro c hc
      rcases List.mem_append.mp hc with h1 | h2
      · exact ih (n / 10) (Nat.div_lt_self (by omega) (by decide)) c h1
      · simp only [List.mem_singleton] at h2
        subst h2
        exact digitChar_isDigit (Nat.mod_lt _ (by decide))

theorem natToChars_ne_nil (n : Nat) : natToChars n ≠ [] := by
  rw [natToChars_eq]
  split
  · simp
  · simp

theorem digitsVal_append (a b : List Char) :
    digitsVal (a ++ b) = digitsVal a * 10 ^ b.length + digitsVal b := by
  induction b using List.reverseRecOn with
  | nil => simp [digitsVal]
  | append_singleton bs c ih =>
    have h1 : a ++ (bs ++ [c]) = (a ++ bs) ++ [c] := by simp
    rw [h1]
    have h2 : ∀ l : List Char, digitsVal (l ++ [c]) = 10 * digitsVal l + digitVal c := by
      intro l
      simp [digitsVal, List.foldl_append]
    rw [h2, h2, ih]
    simp [List.length_append, pow_succ]
    ring

theorem digitsVal_natToChars (n : Nat) : digitsVal (natToChars n) = n := by
  induction n using Nat.strong_induction_on with
  | _ n ih =>
    rw [natToChars_eq]
    split
    · next h =>
      simp [digitsVal, digitVal_digitChar h]
    · next h =>
      rw [digitsVal_append, ih (n / 10) (Nat.div_lt_self (by omega) (by decide))]
      have : digitsVal [digitChar (n % 10)] = n % 10 := by
        simp [digitsVal, digitVal_digitChar (Nat.mod_lt _ (by decide))]
      rw [this]
      simp
      omega

/-! ### Lemmas about digit runs -/

theorem takeWhile_digits_stop (l : List Char) (c : Char) (r : List Char)
    (hl : ∀ x ∈ l, isDigit x = true) (hc : isDigit c = false) :
    (l ++ c :: r).takeWhile isDigit = l ∧ (l ++ c :: r).dropWhile isDigit = c :: r := by
  induction l with
  | nil => simp [List.takeWhile, List.dropWhile, hc]
  | cons a as ih =>
    have ha : isDigit a = true := hl a (List.mem_cons_self a as)
    have ih' := ih (fun x hx => hl x (List.mem_cons_of_mem a hx))
    simp [List.takeWhile, List.dropWhile, ha, ih'.1, ih'.2]

theorem pad2_digits (n : Nat) (h : n < 100) : ∀ c ∈ pad2 n, isDigit c = true := by
  intro c hc
  simp only [pad2, List.mem_cons, List.mem_singleton] at hc
  rcases hc with h1 | h1 | h1
  · subst h1; exact digitChar_isDigit (by omega)
  · subst h1; exact digitChar_isDigit (Nat.mod_lt _ (by decide))
  · cases h1

theorem pad4_digits (n : Nat) (h : n < 10000) : ∀ c ∈ pad4 n, isDigit c = true := by
  intro c hc
  simp only [pad4, List.mem_cons, List.mem_singleton] at hc
  rcases hc with h1 | h1 | h1 | h1 | h1
  · subst h1; exact digitChar_isDigit (by omega)
  · subst h1; exact digitChar_isDigit (Nat.mod_lt _ (by decide))
  · subst h1; exact digitChar_isDigit (Nat.mod_lt _ (by decide))
  · subst h1; exact digitChar_isDigit (Nat.mod_lt _ (by decide))
  · cases h1

theorem digitsVal_pad2 (n : Nat) (h : n < 100) : digitsVal (pad2 n) = n := by
  have h1 : n / 10 < 10 := by omega
  have h2 : n % 10 < 10 := Nat.mod_lt _ (by decide)
  simp [pad2, digitsVal, digitVal_digitChar h1, digitVal_digitChar h2]
  omega

theorem digitsVal_pad4 (n : Nat) (h : n < 10000) : digitsVal (pad4 n) = n := by
  have h1 : n / 1000 < 10 := by omega
  have h2 : n / 100 % 10 < 10 := Nat.mod_lt _ (by decide)
  have h3 : n / 10 % 10 < 10 := Nat.mod_lt _ (by decide)
  have h4 : n % 10 < 10 := Nat.mod_lt _ (by decide)
  simp [pad4, digitsVal, digitVal_digitChar h1, digitVal_digitChar h2,
    digitVal_digitChar h3, digitVal_digitChar h4]
  omega

theorem takeWhile_digits_all (l : List Char) (hl : ∀ x ∈ l, isDigit x = true) :
    l.takeWhile isDigit = l ∧ l.dropWhile isDigit = [] := by
  induction l with
  | nil => simp
  | cons a as ih =>
    have ha : isDigit a = true := hl a (List.mem_cons_self a as)
    have ih' := ih (fun x hx => hl x (List.mem_cons_of_mem a hx))
    simp [List.takeWhile, List.dropWhile, ha, ih'.1, ih'.2]

theorem char_eq_of_toNat_eq {a b : Char} (h : a.toNat = b.toNat) : a = b := by
  have h2 := congrArg Char.ofNat h
  rwa [Char.ofNat_toNat, Char.ofNat_toNat] at h2

theorem isDigit_toNat {c : Char} (h : isDigit c = true) : 48 ≤ c.toNat ∧ c.toNat ≤ 57 := by
  simpa [isDigit] using h

theorem digitVal_lt_ten {c : Char} (h : isDigit c = true) : digitVal c < 10 := by
  have := isDigit_toNat h
  unfold digitVal
  omega

theorem digitChar_digitVal {c : Char} (h : isDigit c = true) : digitChar (digitVal c) = c := by
  have hb := isDigit_toNat h
  unfold digitChar digitVal
  have h48 : 48 + (c.toNat - 48) = c.toNat := by omega
  rw [h48, Char.ofNat_toNat]

theorem digitsVal_cons (a : Char) (as : List Char) :
    digitsVal (a :: as) = digitVal a * 10 ^ as.length + digitsVal as := by
  have h := digitsVal_append [a] as
  simpa [digitsVal] using h

theorem digitsVal_lt_pow (l : List Char) (hl : ∀ c ∈ l, isDigit c = true) :
    digitsVal l < 10 ^ l.length := by
  induction l with
  | nil => simp [digitsVal]
  | cons a as ih =>
    rw [digitsVal_cons]
    have ha : digitVal a < 10 := digitVal_lt_ten (hl a (List.mem_cons_self a as))
    have has := ih (fun c hc => hl c (List.mem_cons_of_mem a hc))
    simp only [List.length_cons, pow_succ]
    nlinarith

theorem mul_pow_add_lt {u v p q B : Nat} (huv : u < v) (hp : p < B) :
    u * B + p < v * B + q := by
  have e : (u + 1) * B = u * B + B := by ring
  have h2 : (u + 1) * B ≤ v * B := Nat.mul_le_mul_right B huv
  omega

/-- Comparing two equal-length runs of digit characters followed by arbitrary
tails: the lexicographic result is decided by the numeric values of the runs,
falling through to the tails on equality. -/
theorem lexLe_digits_append (a : List Char) (r1 r2 : List Char) :
    ∀ b : List Char, (∀ c ∈ a, isDigit c = true) → (∀ c ∈ b, isDigit c = true) →
    a.length = b.length →
    lexLe (a ++ r1) (b ++ r2) =
      (if digitsVal a = digitsVal b then lexLe r1 r2 else decide (digitsVal a < digitsVal b)) := by
  induction a with
  | nil =>
    intro b _ _ hlen
    cases b with
    | nil => simp
    | cons y ys => simp at hlen
  | cons x xs ih =>
    intro b ha hb hlen
    cases b with
    | nil => simp at hlen
    | cons y ys =>
      have hx : isDigit x = true := ha x (List.mem_cons_self x xs)
      have hy : isDigit y = true := hb y (List.mem_cons_self y ys)
      have hxs : ∀ c ∈ xs, isDigit c = true := fun c hc => ha c (List.mem_cons_of_mem x hc)
      have hys : ∀ c ∈ ys, isDigit c = true := fun c hc => hb c (List.mem_cons_of_mem y hc)
      have hlen' : xs.length = ys.length := by simpa using hlen
      have hvx : digitsVal (x :: xs) = digitVal x * 10 ^ xs.length + digitsVal xs :=
        digitsVal_cons x xs
      have hvy : digitsVal (y :: ys) = digitVal y * 10 ^ ys.length + digitsVal ys :=
        digitsVal_cons y ys
      have hbx : digitsVal xs < 10 ^ xs.length := digitsVal_lt_pow xs hxs
      have hby : digitsVal ys < 10 ^ ys.length := digitsVal_lt_pow ys hys
      have hdx : digitVal x < 10 := digitVal_lt_ten hx
      have hdy : digitVal y < 10 := digitVal_lt_ten hy
      by_cases hxy : x = y
      · subst hxy
        show lexLe (x :: (xs ++ r1)) (x :: (ys ++ r2)) = _
        rw [lexLe, if_pos rfl, ih ys hxs hys hlen']
        rw [hvx, hvy, hlen']
        have hiff1 : digitsVal xs = digitsVal ys ↔
            digitVal x * 10 ^ ys.length + digitsVal xs =
              digitVal x * 10 ^ ys.length + digitsVal ys := by omega
        have hiff2 : digitsVal xs < digitsVal ys ↔
            digitVal x * 10 ^ ys.length + digitsVal xs <
              digitVal x * 10 ^ ys.length + digitsVal ys := by omega
        by_cases he : digitsVal xs = digitsVal ys
        · rw [if_pos he, if_pos (hiff1.mp he)]
        · rw [if_neg he, if_neg (fun hcontra => he (hiff1.mpr hcontra))]
          simp only [decide_eq_decide]
          exact hiff2
      · have hdne : digitVal x ≠ digitVal y := by
          intro hcontra
          apply hxy
          have h1 := isDigit_toNat hx
          have h2 := isDigit_toNat hy
          exact char_eq_of_toNat_eq (by unfold digitVal at hcontra; omega)
        show lexLe (x :: (xs ++ r1)) (y :: (ys ++ r2)) = _
        rw [lexLe, if_neg hxy]
        rw [hlen'] at hbx
        have hvne : digitsVal (x :: xs) ≠ digitsVal (y :: ys) := by
          rw [hvx, hvy, hlen']
          rcases Nat.lt_or_ge (digitVal x) (digitVal y) with hlt | hge
          · exact Nat.ne_of_lt (mul_pow_add_lt hlt hbx)
          · have hgt : digitVal y < digitVal x := by omega
            exact (Nat.ne_of_lt (mul_pow_add_lt hgt hby)).symm
        rw [if_neg hvne]
        simp only [decide_eq_decide]
        have h1 := isDigit_toNat hx
        have h2 := isDigit_toNat hy
        constructor
        · intro hlt
          have hdv : digitVal x < digitVal y := by unfold digitVal; omega
          rw [hvx, hvy, hlen']
          exact mul_pow_add_lt hdv hbx
        · intro hlt
          have hdv : digitVal x < digitVal y := by
            by_contra hcontra
            have hgt : digitVal y < digitVal x := by omega
            rw [hvx, hvy, hlen'] at hlt
            exact absurd (mul_pow_add_lt (q := digitsVal xs) hgt hby) (by omega)
          unfold digitVal at hdv
          omega

theorem parseDate_mkDateStr (y m d : Nat) (hy : y < 10000) (hm : m < 100) (hd : d < 100) :
    parseDate (mkDateStr y m d).data = some (y, m, d) := by
  have hdash : isDigit '-' = false := by decide
  have t1 := takeWhile_digits_stop (pad4 y) '-' (pad2 m ++ '-' :: pad2 d) (pad4_digits y hy) hdash
  have t2 := takeWhile_digits_stop (pad2 m) '-' (pad2 d) (pad2_digits m hm) hdash
  have t3 := takeWhile_digits_all (pad2 d) (pad2_digits d hd)
  show parseDate (pad4 y ++ '-' :: (pad2 m ++ '-' :: pad2 d)) = _
  rw [parseDate]
  simp only [t1.1, t1.2, t2.1, t2.2, t3.1, t3.2]
  rw [if_pos]
  · rw [digitsVal_pad4 y hy, digitsVal_pad2 m hm, digitsVal_pad2 d hd]
  · refine ⟨trivial, ?_, ?_, ?_⟩ <;> simp [pad4, pad2]

theorem lexLe_cons_same (c : Char) (as bs : List Char) :
    lexLe (c :: as) (c :: bs) = lexLe as bs := by
  simp [lexLe]

theorem lexLe_pad2_iff (a b : Nat) (ha : a < 100) (hb : b < 100) :
    lexLe (pad2 a) (pad2 b) = true ↔ a ≤ b := by
  rw [← List.append_nil (pad2 a), ← List.append_nil (pad2 b),
    lexLe_digits_append _ _ _ _ (pad2_digits a ha) (pad2_digits b hb) (by simp [pad2]),
    digitsVal_pad2 a ha, digitsVal_pad2 b hb]
  by_cases hab : a = b
  · simp [hab, lexLe]
  · rw [if_neg hab, decide_eq_true_eq]
    omega

theorem lexLe_mkDateStr (y1 m1 d1 y2 m2 d2 : Nat)
    (hy1 : y1 < 10000) (hm1 : m1 < 100) (hd1 : d1 < 100)
    (hy2 : y2 < 10000) (hm2 : m2 < 100) (hd2 : d2 < 100) :
    lexLe (mkDateStr y1 m1 d1).data (mkDateStr y2 m2 d2).data = true ↔
      (y1 < y2 ∨ (y1 = y2 ∧ (m1 < m2 ∨ (m1 = m2 ∧ d1 ≤ d2)))) := by
  show lexLe (pad4 y1 ++ '-' :: (pad2 m1 ++ '-' :: pad2 d1))
      (pad4 y2 ++ '-' :: (pad2 m2 ++ '-' :: pad2 d2)) = true ↔ _
  rw [lexLe_digits_append _ _ _ _ (pad4_digits y1 hy1) (pad4_digits y2 hy2) (by simp [pad4]),
    digitsVal_pad4 y1 hy1, digitsVal_pad4 y2 hy2]
  by_cases hy : y1 = y2
  · subst hy
    rw [if_pos rfl, lexLe_cons_same,
      lexLe_digits_append _ _ _ _ (pad2_digits m1 hm1) (pad2_digits m2 hm2) (by simp [pad2]),
      digitsVal_pad2 m1 hm1, digitsVal_pad2 m2 hm2]
    by_cases hm : m1 = m2
    · subst hm
      rw [if_pos rfl, lexLe_cons_same, lexLe_pad2_iff d1 d2 hd1 hd2]
      omega
    · rw [if_neg hm, decide_eq_true_eq]
      omega
  · rw [if_neg hy, decide_eq_true_eq]
    omega

theorem pad2_digitsVal (a b : Char) (ha : isDigit a = true) (hb : isDigit b = true) :
    pad2 (digitsVal [a, b]) = [a, b] := by
  have va := digitVal_lt_ten ha
  have vb := digitVal_lt_ten hb
  have hval : digitsVal [a, b] = digitVal a * 10 + digitVal b := by
    simp [digitsVal]
    ring
  have e1 : digitsVal [a, b] / 10 = digitVal a := by rw [hval]; omega
  have e2 : digitsVal [a, b] % 10 = digitVal b := by rw [hval]; omega
  rw [pad2, e1, e2, digitChar_digitVal ha, digitChar_digitVal hb]

theorem pad4_digitsVal (a b c d : Char) (ha : isDigit a = true) (hb : isDigit b = true)
    (hc : isDigit c = true) (hd : isDigit d = true) :
    pad4 (digitsVal [a, b, c, d]) = [a, b, c, d] := by
  have va := digitVal_lt_ten ha
  have vb := digitVal_lt_ten hb
  have vc := digitVal_lt_ten hc
  have vd := digitVal_lt_ten hd
  have hval : digitsVal [a, b, c, d] =
      ((digitVal a * 10 + digitVal b) * 10 + digitVal c) * 10 + digitVal d := by
    simp [digitsVal]
    ring
  have e1 : digitsVal [a, b, c, d] / 1000 = digitVal a := by rw [hval]; omega
  have e2 : digitsVal [a, b, c, d] / 100 % 10 = digitVal b := by rw [hval]; omega
  have e3 : digitsVal [a, b, c, d] / 10 % 10 = digitVal c := by rw [hval]; omega
  have e4 : digitsVal [a, b, c, d] % 10 = digitVal d := by rw [hval]; omega
  rw [pad4, e1, e2, e3, e4, digitChar_digitVal ha, digitChar_digitVal hb,
    digitChar_digitVal hc, digitChar_digitVal hd]

theorem isPaddedDate_elim {s : String} (h : isPaddedDate s = true) :
    ∃ y m d, y < 10000 ∧ m < 100 ∧ d < 100 ∧ s = mkDateStr y m d := by
  unfold isPaddedDate at h
  split at h
  next y1 y2 y3 y4 m1 m2 d1 d2 heq =>
    simp only [Bool.and_eq_true] at h
    obtain ⟨⟨⟨⟨⟨⟨⟨hy1, hy2⟩, hy3⟩, hy4⟩, hm1⟩, hm2⟩, hd1⟩, hd2⟩ := h
    refine ⟨digitsVal [y1, y2, y3, y4], digitsVal [m1, m2], digitsVal [d1, d2], ?_, ?_, ?_, ?_⟩
    · have := digitsVal_lt_pow [y1, y2, y3, y4] (by
        intro c hc
        simp only [List.mem_cons, List.mem_singleton] at hc
        rcases hc with rfl | rfl | rfl | rfl | hfalse
        exacts [hy1, hy2, hy3, hy4, absurd hfalse (List.not_mem_nil c)])
      simpa using this
    · have := digitsVal_lt_pow [m1, m2] (by
        intro c hc
        simp only [List.mem_cons, List.mem_singleton] at hc
        rcases hc with rfl | rfl | hfalse
        exacts [hm1, hm2, absurd hfalse (List.not_mem_nil c)])
      simpa using this
    · have := digitsVal_lt_pow [d1, d2] (by
        intro c hc
        simp only [List.mem_cons, List.mem_singleton] at hc
        rcases hc with rfl | rfl | hfalse
        exacts [hd1, hd2, absurd hfalse (List.not_mem_nil c)])
      simpa using this
    · apply String.ext
      rw [heq]
      show _ = pad4 (digitsVal [y1, y2, y3, y4]) ++
        '-' :: (pad2 (digitsVal [m1, m2]) ++ '-' :: pad2 (digitsVal [d1, d2]))
      rw [pad4_digitsVal y1 y2 y3 y4 hy1 hy2 hy3 hy4, pad2_digitsVal m1 m2 hm1 hm2,
        pad2_digitsVal d1 d2 hd1 hd2]
      rfl
  next => exact absurd h (by simp)

/-! ## Claim C8 -/

/-- C8 counterexample: `validate_date` (i.e. `strptime` with `%Y-%m-%d`)
accepts `"2024-5-1"`, which is not in the zero-padded `YYYY-MM-DD` form;
moreover `"2024-5-01"` (May 1) and `"2024-10-01"` (October 1) are both
accepted, the first is chronologically earlier, yet lexicographic string
comparison puts it later. -/
theorem c8_counterexample :
    validateDate "2024-5-1" = true ∧ isPaddedDate "2024-5-1" = false ∧
    validateDate "2024-5-01" = true ∧ validateDate "2024-10-01" = true ∧
    chronoLe (dateOf "2024-5-01") (dateOf "2024-10-01") ∧
    lexLe "2024-5-01".data "2024-10-01".data = false := by
  refine ⟨?_, ?_, ?_, ?_, ?_, ?_⟩ <;> decide

/-- C8 (amended): `validate_date` accepts every string parseable by
`strptime` with `%Y-%m-%d`, which allows one- or two-digit months and
days; for accepted date strings that ARE in the exact zero-padded
`YYYY-MM-DD` form, lexicographic string comparison agrees with the
chronological order of the dates they denote. -/
theorem c8_padded_lex_agrees_chrono (s1 s2 : String)
    (hv1 : validateDate s1 = true) (hp1 : isPaddedDate s1 = true)
    (hv2 : validateDate s2 = true) (hp2 : isPaddedDate s2 = true) :
    lexLe s1.data s2.data = true ↔ chronoLe (dateOf s1) (dateOf s2) := by
  obtain ⟨y1, m1, d1, hy1, hm1, hd1, rfl⟩ := isPaddedDate_elim hp1
  obtain ⟨y2, m2, d2, hy2, hm2, hd2, rfl⟩ := isPaddedDate_elim hp2
  have p1 := parseDate_mkDateStr y1 m1 d1 hy1 hm1 hd1
  have p2 := parseDate_mkDateStr y2 m2 d2 hy2 hm2 hd2
  unfold dateOf
  rw [p1, p2]
  simpa [chronoLe] using lexLe_mkDateStr y1 m1 d1 y2 m2 d2 hy1 hm1 hd1 hy2 hm2 hd2

/-- Witness for C8: concrete padded accepted dates compared. -/
theorem c8_witness :
    validateDate "2023-04-05" = true ∧ isPaddedDate "2023-04-05" = true ∧
    validateDate "2023-11-30" = true ∧ isPaddedDate "2023-11-30" = true ∧
    (lexLe "2023-04-05".data "2023-11-30".data = true ↔
      chronoLe (dateOf "2023-04-05") (dateOf "2023-11-30")) :=
  ⟨by decide, by decide, by decide, by decide,
    c8_padded_lex_agrees_chrono "2023-04-05" "2023-11-30"
      (by decide) (by decide) (by decide) (by decide)⟩

/-! ## Parsing canonical cents strings -/

theorem stripWsList_id (l : List Char) (h : ∀ c ∈ l, isPyWs c = false) :
    stripWsList l = l := by
  have h1 : l.dropWhile isPyWs = l := by
    cases l with
    | nil => rfl
    | cons a t =>
      rw [List.dropWhile_cons, h a (List.mem_cons_self a t)]
      simp
  rw [stripWsList, h1]
  have h2 : l.reverse.dropWhile isPyWs = l.reverse := by
    cases hr : l.reverse with
    | nil => rfl
    | cons a t =>
      have ha : a ∈ l := by
        rw [← List.mem_reverse, hr]
        exact List.mem_cons_self a t
      rw [List.dropWhile_cons, h a ha]
      simp
  rw [h2, List.reverse_reverse]

theorem digit_not_ws {c : Char} (h : isDigit c = true) : isPyWs c = false := by
  have hb := isDigit_toNat h
  simp only [isPyWs]
  have h1 : c ≠ ' ' := fun he => by subst he; simp at hb
  have h2 : c ≠ '\t' := fun he => by subst he; simp at hb
  have h3 : c ≠ '\n' := fun he => by subst he; simp at hb
  have h4 : c ≠ '\r' := fun he => by subst he; simp at hb
  have h5 : c ≠ '\x0b' := fun he => by subst he; simp at hb
  have h6 : c ≠ '\x0c' := fun he => by subst he; simp at hb
  simp [h1, h2, h3, h4, h5, h6]

theorem digit_not_underscore {c : Char} (h : isDigit c = true) : (c != '_') = true := by
  have hb := isDigit_toNat h
  have hne : c ≠ '_' := fun he => by subst he; simp at hb
  simpa using hne

theorem asciiLower_digit {c : Char} (h : isDigit c = true) : asciiLower c = c := by
  have hb := isDigit_toNat h
  unfold asciiLower
  rw [if_neg (by omega)]

theorem centsToChars_chars (a : Int) :
    ∀ c ∈ centsToChars a, isPyWs c = false ∧ (c != '_') = true := by
  intro c hc
  unfold centsToChars at hc
  rw [List.mem_append, List.mem_append] at hc
  rcases hc with (hc | hc) | hc
  · have : c = '-' := by
      rcases Decidable.em (a < 0) with hlt | hge
      · rw [if_pos hlt] at hc; simpa using hc
      · rw [if_neg hge] at hc; simp at hc
    subst this
    exact ⟨by decide, by decide⟩
  · have hd := natToChars_all_digits (a.natAbs / 100) c hc
    exact ⟨digit_not_ws hd, digit_not_underscore hd⟩
  · rcases List.mem_cons.mp hc with rfl | hc2
    · exact ⟨by decide, by decide⟩
    · have hd := pad2_digits (a.natAbs % 100) (Nat.mod_lt _ (by decide)) c hc2
      exact ⟨digit_not_ws hd, digit_not_underscore hd⟩

theorem parseSign_digit {h : Char} (hd : isDigit h = true) (r : List Char) :
    parseSign (h :: r) = (false, h :: r) := by
  have hb := isDigit_toNat hd
  have h1 : h ≠ '-' := fun he => by subst he; simp at hb
  have h2 : h ≠ '+' := fun he => by subst he; simp at hb
  simp [parseSign, h1, h2]

theorem parseNumericTail_cents (neg : Bool) (n : Nat) :
    parseNumericTail neg (natToChars (n / 100) ++ '.' :: pad2 (n % 100)) =
      some (.finite neg n (-2)) := by
  have hI := takeWhile_digits_stop (natToChars (n / 100)) '.' (pad2 (n % 100))
    (natToChars_all_digits _) (by decide)
  have hF := takeWhile_digits_all (pad2 (n % 100)) (pad2_digits _ (Nat.mod_lt _ (by decide)))
  rw [parseNumericTail]
  simp only [hI.1, hI.2, hF.1, hF.2]
  rw [if_neg (by
    intro hcon
    exact natToChars_ne_nil (n / 100) hcon.1)]
  have hval : digitsVal (natToChars (n / 100) ++ pad2 (n % 100)) = n := by
    rw [digitsVal_append, digitsVal_natToChars, digitsVal_pad2 _ (Nat.mod_lt _ (by decide))]
    simp [pad2]
    omega
  rw [hval]
  simp [pad2]

theorem exists_digit_head (n : Nat) :
    ∃ h t, natToChars n = h :: t ∧ isDigit h = true := by
  cases heq : natToChars n with
  | nil => exact absurd heq (natToChars_ne_nil n)
  | cons h t =>
    refine ⟨h, t, rfl, ?_⟩
    have := natToChars_all_digits n h
    rw [heq] at this
    exact this (List.mem_cons_self h t)

theorem not_inf_guard {h : Char} (hd : isDigit h = true) (X : List Char) :
    ¬(h :: X = ['i', 'n', 'f'] ∨ h :: X = ['i', 'n', 'f', 'i', 'n', 'i', 't', 'y']) := by
  intro hcon
  rcases hcon with hc | hc <;>
  · simp only [List.cons.injEq] at hc
    obtain ⟨rfl, -⟩ := hc
    exact absurd hd (by decide)

theorem not_nan_guard {h : Char} (hd : isDigit h = true) (X : List Char) :
    ¬((((h :: X).take 3 = ['n', 'a', 'n']) ∧ ((h :: X).drop 3).all isDigit) ∨
      (((h :: X).take 4 = ['s', 'n', 'a', 'n']) ∧ ((h :: X).drop 4).all isDigit)) := by
  intro hcon
  have htk3 : (h :: X).take 3 = h :: X.take 2 := rfl
  have htk4 : (h :: X).take 4 = h :: X.take 3 := rfl
  rcases hcon with ⟨hc, -⟩ | ⟨hc, -⟩
  · rw [htk3] at hc
    simp only [List.cons.injEq] at hc
    obtain ⟨rfl, -⟩ := hc
    exact absurd hd (by decide)
  · rw [htk4] at hc
    simp only [List.cons.injEq] at hc
    obtain ⟨rfl, -⟩ := hc
    exact absurd hd (by decide)

theorem pyDecimalOfString_centsToString (a : Int) :
    pyDecimalOfString (centsToString a) =
      some (.finite (decide (a < 0)) a.natAbs (-2)) := by
  have hchars := centsToChars_chars a
  have hdata : (centsToString a).data = centsToChars a := rfl
  obtain ⟨h, t, hht, hdig⟩ := exists_digit_head (a.natAbs / 100)
  rw [pyDecimalOfString, hdata,
    stripWsList_id _ (fun c hc => (hchars c hc).1),
    List.filter_eq_self.mpr (fun c hc => (hchars c hc).2)]
  rcases Decidable.em (a < 0) with hlt | hge
  · have hcs : centsToChars a = '-' :: (natToChars (a.natAbs / 100) ++
        '.' :: pad2 (a.natAbs % 100)) := by
      unfold centsToChars
      rw [if_pos hlt]
      rfl
    rw [hcs]
    have hsign : parseSign ('-' :: (natToChars (a.natAbs / 100) ++
        '.' :: pad2 (a.natAbs % 100))) = (true, natToChars (a.natAbs / 100) ++
        '.' :: pad2 (a.natAbs % 100)) := by
      simp [parseSign]
    rw [hsign]
    simp only [hht, List.cons_append, List.map_cons, asciiLower_digit hdig]
    rw [if_neg (not_inf_guard hdig _), if_neg (not_nan_guard hdig _)]
    rw [← List.cons_append, ← hht, parseNumericTail_cents]
    simp [hlt]
  · have hcs : centsToChars a = natToChars (a.natAbs / 100) ++
        '.' :: pad2 (a.natAbs % 100) := by
      unfold centsToChars
      rw [if_neg hge]
      rfl
    rw [hcs, hht, List.cons_append, parseSign_digit hdig]
    simp only [List.map_cons, asciiLower_digit hdig]
    rw [if_neg (not_inf_guard hdig _), if_neg (not_nan_guard hdig _)]
    rw [← List.cons_append, ← hht, parseNumericTail_cents]
    simp [hge]

theorem validateAmount_centsToString (a : Int) :
    validateAmount (centsToString a) = .ok (decide (0 < a)) := by
  rw [validateAmount, pyDecimalOfString_centsToString]
  show Except.ok (decide (decide (a < 0) = false ∧ a.natAbs ≠ 0)) = Except.ok (decide (0 < a))
  congr 1
  rw [decide_eq_decide]
  constructor
  · rintro ⟨hnegf, hcoeff⟩
    have h1 : ¬a < 0 := by simpa using hnegf
    omega
  · intro hpos
    refine ⟨by simp; omega, by omega⟩

/-! ## Round trip of records through the CSV rows -/

theorem decScaleCents_neg2 (c : Nat) : decScaleCents c (-2) = some c := by
  unfold decScaleCents
  norm_num

theorem decToCents_cents (a : Int) :
    decToCents (.finite (decide (a < 0)) a.natAbs (-2)) = some a := by
  show (match decScaleCents a.natAbs (-2) with
    | some m => some (if decide (a < 0) = true then -(m : Int) else (m : Int))
    | none => none) = some a
  rw [decScaleCents_neg2]
  show some (if decide (a < 0) = true then -(a.natAbs : Int) else (a.natAbs : Int)) = some a
  rcases Decidable.em (a < 0) with hlt | hge
  · rw [decide_eq_true hlt, if_pos rfl]
    exact congrArg some (by omega)
  · rw [decide_eq_false hge]
    rw [if_neg (by simp)]
    exact congrArg some (by omega)

theorem loadRow_expenseToRow (e : Expense) : loadRow (expenseToRow e) = some e := by
  show (match pyDecimalOfString (centsToString e.amount) with
    | some v =>
      match decToCents v with
      | some cents => some (⟨e.date, e.category, cents, e.description⟩ : Expense)
      | none => none
    | none => none) = some e
  rw [pyDecimalOfString_centsToString]
  show (match decToCents (.finite (decide (e.amount < 0)) e.amount.natAbs (-2)) with
    | some cents => some (⟨e.date, e.category, cents, e.description⟩ : Expense)
    | none => none) = some e
  rw [decToCents_cents]

theorem mapM_loadRow_map (es : List Expense) :
    (es.map expenseToRow).mapM loadRow = some es := by
  induction es with
  | nil => rfl
  | cons e rest ih =>
    rw [List.map_cons, List.mapM_cons, loadRow_expenseToRow, ih]
    rfl

/-- C1: for every sequence of valid records (calendar-valid date, positive
amount), `save_expenses` followed by `load_expenses` reproduces exactly the
same records: same order, same date, category, amount and description. -/
theorem c1_save_load_round_trip (es : List Expense)
    (hvalid : ∀ e ∈ es, validateDate e.date = true ∧ 0 < e.amount) :
    loadExpenses (saveExpenses es) = some es := by
  show (if headerRow = headerRow then (es.map expenseToRow).mapM loadRow else none) = some es
  rw [if_pos rfl]
  exact mapM_loadRow_map es

/-- Witness for C1 at a concrete two-record store. -/
theorem c1_witness :
    (∀ e ∈ [Expense.mk "2024-05-01" "food" 1550 "lunch",
            Expense.mk "2024-06-02" "transport" 250 ""],
      validateDate e.date = true ∧ 0 < e.amount) ∧
    loadExpenses (saveExpenses [Expense.mk "2024-05-01" "food" 1550 "lunch",
 Expense.mk "2024-06-02" "transport" 250 ""]) =
      some [Expense.mk "2024-05-01" "food" 1550 "lunch",
            Expense.mk "2024-06-02" "transport" 250 ""] :=
  ⟨by decide, c1_save_load_round_trip _ (by decide)⟩

/-! ## Rejected mutations leave the store unchanged -/

/-- C2: any `add_expense` or `edit_expense` call whose date string fails the
fixed-format parse or whose amount is not strictly positive returns `False`
and leaves the in-memory expense sequence exactly as it was. -/
theorem c2_invalid_input_rejected (es : List Expense) (dateStr category : String)
    (amount : Int) (description : String) (i : Int)
    (h : ¬(validateDate dateStr = true ∧ 0 < amount)) :
    addExpense es dateStr category amount description = .ok (false, es) ∧
    editExpense es i dateStr category amount description = .ok (false, es) := by
  have hcase : validateDate dateStr = false ∨ ¬(0 < amount) := by
    rcases Decidable.em (validateDate dateStr = true) with hd | hd
    · exact Or.inr (fun hpos => h ⟨hd, hpos⟩)
    · left
      revert hd
      cases validateDate dateStr <;> simp
  constructor
  · unfold addExpense
    rcases hcase with hd | ha
    · rw [hd]
      rfl
    · rw [validateAmount_centsToString]
      have hfa : decide (0 < amount) = false := decide_eq_false ha
      rw [hfa]
      cases validateDate dateStr <;> rfl
  · unfold editExpense
    rcases Decidable.em (0 ≤ i ∧ i < (es.length : Int)) with hb | hb
    · rw [if_pos hb]
      rcases hcase with hd | ha
      · rw [hd]
        rfl
      · rw [validateAmount_centsToString]
        have hfa : decide (0 < amount) = false := decide_eq_false ha
        rw [hfa]
        cases validateDate dateStr <;> rfl
    · rw [if_neg hb]

/-- Witness for C2: adding/editing with amount `0` is rejected. -/
theorem c2_witness :
    ¬(validateDate "2024-05-01" = true ∧ (0 : Int) < 0) ∧
    addExpense [] "2024-05-01" "food" 0 "" = .ok (false, []) ∧
    editExpense [] 0 "2024-05-01" "food" 0 "" = .ok (false, []) := by
  refine ⟨by simp, ?_, ?_⟩
  · exact (c2_invalid_input_rejected [] "2024-05-01" "food" 0 "" 0 (by simp)).1
  · exact (c2_invalid_input_rejected [] "2024-05-01" "food" 0 "" 0 (by simp)).2

/-! ## Deletion -/

/-- C3: `delete_expense(i)` on an in-bounds index succeeds, removes exactly
the record at `i` and shifts every later record down one position; on an
out-of-bounds index (negative or `≥ length`) it is a no-op returning
`False`. -/
theorem c3_delete_shifts (es : List Expense) (i : Int) :
    (0 ≤ i ∧ i < es.length →
      (deleteExpense es i).1 = true ∧
      (deleteExpense es i).2.length = es.length - 1 ∧
      (∀ j : Nat, j < i.toNat → (deleteExpense es i).2[j]? = es[j]?) ∧
      (∀ j : Nat, i.toNat ≤ j → (deleteExpense es i).2[j]? = es[j + 1]?)) ∧
    (¬(0 ≤ i ∧ i < es.length) → deleteExpense es i = (false, es)) := by
  constructor
  · intro hb
    unfold deleteExpense
    rw [if_pos hb]
    refine ⟨rfl, ?_, ?_, ?_⟩
    · show (es.eraseIdx i.toNat).length = es.length - 1
      rw [List.length_eraseIdx]
      have : i.toNat < es.length := by omega
      rw [if_pos this]
    · intro j hj
      exact List.getElem?_eraseIdx_of_lt es i.toNat j hj
    · intro j hj
      exact List.getElem?_eraseIdx_of_ge es i.toNat j hj
  · intro hb
    unfold deleteExpense
    rw [if_neg hb]

/-- Witness for C3: deleting index 1 of a three-record store. -/
theorem c3_witness :
    ((0 : Int) ≤ 1 ∧ (1 : Int) < ([Expense.mk "2024-01-01" "a" 1 "",
      Expense.mk "2024-01-02" "b" 2 "", Expense.mk "2024-01-03" "c" 3 ""] :
        List Expense).length) ∧
    (deleteExpense [Expense.mk "2024-01-01" "a" 1 "", Expense.mk "2024-01-02" "b" 2 "",
      Expense.mk "2024-01-03" "c" 3 ""] 1).1 = true ∧
    (deleteExpense [Expense.mk "2024-01-01" "a" 1 "", Expense.mk "2024-01-02" "b" 2 "",
      Expense.mk "2024-01-03" "c" 3 ""] 1).2[1]? =
      some (Expense.mk "2024-01-03" "c" 3 "") := by
  have h := c3_delete_shifts [Expense.mk "2024-01-01" "a" 1 "",
    Expense.mk "2024-01-02" "b" 2 "", Expense.mk "2024-01-03" "c" 3 ""] 1
  have hb : (0 : Int) ≤ 1 ∧ (1 : Int) < ([Expense.mk "2024-01-01" "a" 1 "",
      Expense.mk "2024-01-02" "b" 2 "", Expense.mk "2024-01-03" "c" 3 ""] :
        List Expense).length := by
    constructor
    · decide
    · decide
  obtain ⟨hfst, -, -, hge⟩ := h.1 hb
  refine ⟨hb, hfst, ?_⟩
  rw [hge 1 (by decide)]
  decide

/-! ## Search as a single conjunctive filter -/

theorem strIte_filter (k : String) (P : Expense → Bool) (l : List Expense) :
    (if k ≠ "" then l.filter P else l) = l.filter (fun e => (k == "") || P e) := by
  by_cases h : k = ""
  · subst h
    simp
  · rw [if_pos h]
    have hb : (k == "") = false := by simpa using h
    simp [hb]

theorem filterExc_some (p : α → Bool) (l : List α) :
    filterExc (fun a => some (p a)) l = some (l.filter p) := by
  induction l with
  | nil => rfl
  | cons a t ih =>
    rw [filterExc, ih]
    rw [List.filter_cons]

theorem decLeCents_eq_some {v : PyDecVal} (hv : v ≠ .nan) (a : Int) :
    decLeCents v a = some ((decLeCents v a).getD false) := by
  cases v with
  | nan => exact absurd rfl hv
  | infinite n => rfl
  | finite n c e =>
    unfold decLeCents
    dsimp only
    split <;> rfl

theorem centsLeDec_eq_some {v : PyDecVal} (hv : v ≠ .nan) (a : Int) :
    centsLeDec a v = some ((centsLeDec a v).getD false) := by
  cases v with
  | nan => exact absurd rfl hv
  | infinite n => rfl
  | finite n c e =>
    unfold centsLeDec
    dsimp only
    split <;> rfl

/-- C4: with any combination of present (non-empty) criteria — under the
claim's premise that present amount bounds denote numbers — `search_expenses`
returns exactly the expenses satisfying the conjunction of the present
criteria: case-insensitive keyword substring on description or category,
case-insensitive exact category match, inclusive string comparison on the
date bounds, inclusive numeric comparison on the amount bounds. -/
theorem c4_search_conjunction (es : List Expense)
    (keyword category startDate endDate minAmount maxAmount : String)
    (hmn : minAmount = "" ∨ ∃ v, pyDecimalOfString minAmount = some v ∧ v ≠ .nan)
    (hmx : maxAmount = "" ∨ ∃ v, pyDecimalOfString maxAmount = some v ∧ v ≠ .nan) :
    searchExpenses es keyword category startDate endDate minAmount maxAmount =
      some (es.filter (fun e =>
        (keyword == "" || (pySubstr (pyLower keyword) (pyLower e.description) ||
          pySubstr (pyLower keyword) (pyLower e.category))) &&
        ((category == "" || pyLower e.category == pyLower category) &&
        ((startDate == "" || lexLe startDate.data e.date.data) &&
        ((endDate == "" || lexLe e.date.data endDate.data) &&
        ((minAmount == "" || ((pyDecimalOfString minAmount).bind
          (fun v => decLeCents v e.amount)).getD false) &&
        (maxAmount == "" || ((pyDecimalOfString maxAmount).bind
          (fun v => centsLeDec e.amount v)).getD false))))))) := by
  simp only [searchExpenses]
  rw [strIte_filter, strIte_filter, strIte_filter, strIte_filter,
    List.filter_filter, List.filter_filter, List.filter_filter]
  rcases hmn with rfl | ⟨v, hv, hvn⟩
  · rw [if_neg (fun h => h rfl)]
    simp only [Option.some_bind]
    rcases hmx with rfl | ⟨w, hw, hwn⟩
    · rw [if_neg (fun h => h rfl)]
      refine congrArg some (List.filter_congr ?_)
      intro e _
      simp [Bool.and_assoc, Bool.and_comm, Bool.and_left_comm]
    · have hne : maxAmount ≠ "" := by
        intro h
        rw [h, show pyDecimalOfString "" = none from by decide] at hw
        cases hw
      rw [if_pos hne, hw]
      simp only [Option.some_bind]
      have hfn : (fun e : Expense => centsLeDec e.amount w) =
          (fun e => some ((centsLeDec e.amount w).getD false)) :=
        funext (fun e => centsLeDec_eq_some hwn e.amount)
      rw [hfn, filterExc_some, List.filter_filter]
      refine congrArg some (List.filter_congr ?_)
      intro e _
      have hbw : (maxAmount == "") = false := by simpa using hne
      simp [hw, hbw, Bool.and_assoc, Bool.and_comm, Bool.and_left_comm]
  · have hne : minAmount ≠ "" := by
      intro h
      rw [h, show pyDecimalOfString "" = none from by decide] at hv
      cases hv
    rw [if_pos hne, hv]
    simp only [Option.some_bind]
    have hfn : (fun e : Expense => decLeCents v e.amount) =
        (fun e => some ((decLeCents v e.amount).getD false)) :=
      funext (fun e => decLeCents_eq_some hvn e.amount)
    rw [hfn, filterExc_some, List.filter_filter]
    simp only [Option.some_bind]
    rcases hmx with rfl | ⟨w, hw, hwn⟩
    · rw [if_neg (fun h => h rfl)]
      refine congrArg some (List.filter_congr ?_)
      intro e _
      have hbv : (minAmount == "") = false := by simpa using hne
      simp [hv, hbv, Bool.and_assoc, Bool.and_comm, Bool.and_left_comm]
    · have hne2 : maxAmount ≠ "" := by
        intro h
        rw [h, show pyDecimalOfString "" = none from by decide] at hw
        cases hw
      rw [if_pos hne2, hw]
      simp only [Option.some_bind]
      have hfn2 : (fun e : Expense => centsLeDec e.amount w) =
          (fun e => some ((centsLeDec e.amount w).getD false)) :=
        funext (fun e => centsLeDec_eq_some hwn e.amount)
      rw [hfn2, filterExc_some, List.filter_filter]
      refine congrArg some (List.filter_congr ?_)
      intro e _
      have hbv : (minAmount == "") = false := by simpa using hne
      have hbw : (maxAmount == "") = false := by simpa using hne2
      simp [hv, hw, hbv, hbw, Bool.and_assoc, Bool.and_comm, Bool.and_left_comm]

/-- Witness for C4: one present criterion of each kind on a two-record
store. -/
theorem c4_witness :
    (("10.00" : String) = "" ∨ ∃ v, pyDecimalOfString "10.00" = some v ∧ v ≠ .nan) ∧
    searchExpenses [Expense.mk "2024-05-01" "food" 1550 "lunch out",
        Expense.mk "2024-06-02" "transport" 250 "bus"]
      "lunch" "" "2024-01-01" "" "10.00" "" =
      some [Expense.mk "2024-05-01" "food" 1550 "lunch out"] := by
  constructor
  · exact Or.inr ⟨.finite false 1000 (-2), by decide, by decide⟩
  · rw [c4_search_conjunction _ _ _ _ _ _ _
      (Or.inr ⟨.finite false 1000 (-2), by decide, by decide⟩) (Or.inl rfl)]
    decide

/-! ## The report/budget mutual recursion -/

theorem monthlyReport_buggy_diverges :
    ∀ fuel, getMonthlyReportF fuel
      (Config.mk [("2024-05", [("food", "100.00")])])
      [Expense.mk "2024-05-01" "food" 8000 ""] "2024-05" = none := by
  intro fuel
  induction fuel with
  | zero => rfl
  | succ k ih =>
    rw [getMonthlyReportF, ih]
    decide

/-- C5 (code bug): `get_monthly_report` and `_get_budget_status` are
mutually recursive with no base case for a month that has both matching
expenses and configured budgets: `get_monthly_report("2024-05")` on a
store holding one May expense with a May budget recurses forever
(`RecursionError` in Python) at every recursion depth, instead of
returning the report the claim describes. -/
theorem c5_monthly_report_diverges :
    ∀ fuel, getMonthlyReportF fuel
      (Config.mk [("2024-05", [("food", "100.00")])])
      [Expense.mk "2024-05-01" "food" 8000 ""] "2024-05" = none :=
  monthlyReport_buggy_diverges

/-- C6 (code bug): `_get_budget_status("2024-05")` with a configured May
budget and a matching May expense calls `get_monthly_report`, which calls
it back: the call never returns (`RecursionError`), for any recursion
depth, instead of producing the spent/remaining/percentage row the claim
describes. -/
theorem c6_budget_status_diverges :
    ∀ fuel, getBudgetStatusF fuel
      (Config.mk [("2024-05", [("food", "100.00")])])
      [Expense.mk "2024-05-01" "food" 8000 ""] "2024-05" = none := by
  intro fuel
  have step : getBudgetStatusF fuel
      (Config.mk [("2024-05", [("food", "100.00")])])
      [Expense.mk "2024-05-01" "food" 8000 ""] "2024-05" =
      (match getMonthlyReportF fuel
          (Config.mk [("2024-05", [("food", "100.00")])])
          [Expense.mk "2024-05-01" "food" 8000 ""] "2024-05" with
      | none => none
      | some rep => budgetStatusCore [("food", "100.00")] rep) := rfl
  rw [step, monthlyReport_buggy_diverges fuel]

/-! ## Amount validation raises on non-numeric input -/

/-- C7 (code bug): `validate_amount` wraps `Decimal(amount_str) > 0` in
`except (ValueError, TypeError)`, but `Decimal("abc")` raises
`decimal.InvalidOperation` — an `ArithmeticError`, caught by neither —
so the call propagates the exception instead of returning `False`. -/
theorem c7_validate_amount_raises :
    validateAmount "abc" = .error "InvalidOperation" ∧
    ∀ b, validateAmount "abc" ≠ .ok b :=
  ⟨rfl, fun _ h => Except.noConfusion h⟩

/-! ## Quantization of entered amounts -/

/-- C9 counterexample: the UI quantizes with the context default
`ROUND_HALF_EVEN`, not round-half-up — an entered `2.005` is stored as
`2.00` (200 cents), not the `2.01` (201 cents) the claim requires, while
`1.995` rounds up to `2.00` (even). -/
theorem c9_counterexample :
    uiQuantize "2.005" = some 200 ∧ uiQuantize "2.005" ≠ some 201 ∧
    uiQuantize "1.995" = some 200 := by
  refine ⟨by decide, by decide, by decide⟩

theorem halfEvenDivNat_char (c d : Nat) (hd : 0 < d) :
    2 * Nat.dist (halfEvenDivNat c d * d) c ≤ d ∧
    (2 * Nat.dist (halfEvenDivNat c d * d) c = d → halfEvenDivNat c d % 2 = 0) := by
  have key : c / d * d + c % d = c := by
    rw [Nat.mul_comm]
    exact Nat.div_add_mod c d
  have hr : c % d < d := Nat.mod_lt _ hd
  unfold halfEvenDivNat
  have hsucc : ∀ q : Nat, (q + 1) * d = q * d + d := fun q => by ring
  split
  · next h1 =>
    simp only [Nat.dist]
    omega
  · next h1 =>
    split
    · next h2 =>
      rw [hsucc]
      simp only [Nat.dist]
      omega
    · next h2 =>
      split
      · next h3 =>
        simp only [Nat.dist]
        omega
      · next h3 =>
        rw [hsucc]
        simp only [Nat.dist]
        constructor
        · omega
        · intro _
          omega

/-- C9 (amended): every monetary amount entered through the add/edit flows
is quantized to exactly 2 fractional digits by
`Decimal(amount_str).quantize(Decimal('0.01'))` under the default context:
rounding is `ROUND_HALF_EVEN` (not round-half-up: 2.005 → 2.00, with ties
going to the even cent count, and inputs with at most 2 fractional digits
kept exactly), and when the quantized coefficient would exceed the
context precision of 28 digits the call raises `InvalidOperation`
(uncaught in these flows) instead of storing a value. -/
theorem c9_quantize_half_even (s : String) (c : Nat) (e : Int)
    (hparse : pyDecimalOfString s = some (.finite false c e)) :
    (10 ^ 28 ≤ quantMag c e → uiQuantize s = none) ∧
    (quantMag c e < 10 ^ 28 →
      uiQuantize s = some ((quantMag c e : Nat) : Int) ∧
      (0 ≤ e + 2 → quantMag c e = c * 10 ^ (e + 2).toNat) ∧
      (e + 2 < 0 →
        2 * Nat.dist (quantMag c e * 10 ^ (-(e + 2)).toNat) c ≤ 10 ^ (-(e + 2)).toNat ∧
        (2 * Nat.dist (quantMag c e * 10 ^ (-(e + 2)).toNat) c = 10 ^ (-(e + 2)).toNat →
          quantMag c e % 2 = 0))) := by
  have hui : uiQuantize s = quantize2 (.finite false c e) := by
    rw [uiQuantize, hparse]
  have hq : quantize2 (.finite false c e) =
      (if quantMag c e < 10 ^ 28 then some ((quantMag c e : Nat) : Int) else none) := by
    show (if quantMag c e < 10 ^ 28 then
        some (if false = true then -(quantMag c e : Int) else (quantMag c e : Int))
      else none) = _
    split
    · rw [if_neg (by simp)]
    · rfl
  constructor
  · intro hover
    rw [hui, hq, if_neg (by omega)]
  · intro hlt
    refine ⟨by rw [hui, hq, if_pos hlt], ?_, ?_⟩
    · intro hpos
      unfold quantMag
      rw [if_pos hpos]
    · intro hneg
      have hd : 0 < 10 ^ (-(e + 2)).toNat := Nat.pos_pow_of_pos _ (by decide)
      have hchar := halfEvenDivNat_char c (10 ^ (-(e + 2)).toNat) hd
      have hqm : quantMag c e = halfEvenDivNat c (10 ^ (-(e + 2)).toNat) := by
        unfold quantMag
        rw [if_neg (by omega)]
      rw [hqm]
      exact hchar

/-- Witness for C9: the entered string `2.005` (coefficient 2005,
exponent −3) is stored; `1e30` overflows the 28-digit quantize precision
and raises. -/
theorem c9_witness :
    pyDecimalOfString "2.005" = some (.finite false 2005 (-3)) ∧
    quantMag 2005 (-3) < 10 ^ 28 ∧
    uiQuantize "2.005" = some ((quantMag 2005 (-3) : Nat) : Int) ∧
    pyDecimalOfString "1e30" = some (.finite false 1 30) ∧
    10 ^ 28 ≤ quantMag 1 30 ∧
    uiQuantize "1e30" = none := by
  have h1 := c9_quantize_half_even "2.005" 2005 (-3) (by decide)
  have h2 := c9_quantize_half_even "1e30" 1 30 (by decide)
  exact ⟨by decide, by decide, (h1.2 (by decide)).1, by decide, by decide, h2.1 (by decide)⟩

/-! ## Budget deletion -/

theorem alookup_eraseKey_self (l : List (String × α)) (k : String) :
    alookup (eraseKey k l) k = none := by
  induction l with
  | nil => rfl
  | cons p t ih =>
    obtain ⟨k1, v1⟩ := p
    rw [eraseKey, List.filter_cons]
    by_cases h : k1 = k
    · have : ((k1, v1).1 != k) = false := by simpa using h
      rw [this]
      simpa [eraseKey] using ih
    · have : ((k1, v1).1 != k) = true := by simpa using h
      rw [this]
      show alookup ((k1, v1) :: eraseKey k t) k = none
      rw [alookup, if_neg h]
      simpa [eraseKey] using ih

theorem alookup_eraseKey_ne (l : List (String × α)) (k k' : String) (h : k' ≠ k) :
    alookup (eraseKey k l) k' = alookup l k' := by
  induction l with
  | nil => rfl
  | cons p t ih =>
    obtain ⟨k1, v1⟩ := p
    rw [eraseKey, List.filter_cons]
    by_cases h1 : k1 = k
    · have hb : ((k1, v1).1 != k) = false := by simpa using h1
      rw [hb]
      show alookup (eraseKey k t) k' = alookup ((k1, v1) :: t) k'
      rw [ih, alookup, if_neg (by rw [h1]; exact fun he => h he.symm)]
    · have hb : ((k1, v1).1 != k) = true := by simpa using h1
      rw [hb]
      show alookup ((k1, v1) :: eraseKey k t) k' = alookup ((k1, v1) :: t) k'
      rw [alookup, alookup, ih]

theorem alookup_updateVal_self (l : List (String × α)) (k : String) (v : α)
    (h : (alookup l k).isSome) : alookup (updateVal k v l) k = some v := by
  induction l with
  | nil => simp [alookup] at h
  | cons p t ih =>
    obtain ⟨k1, v1⟩ := p
    rw [updateVal, List.map_cons]
    by_cases h1 : k1 = k
    · rw [if_pos h1]
      show alookup ((k, v) :: _) k = some v
      rw [alookup, if_pos rfl]
    · rw [if_neg h1]
      show alookup ((k1, v1) :: updateVal k v t) k = some v
      rw [alookup, if_neg h1]
      apply ih
      rw [alookup, if_neg h1] at h
      exact h

theorem alookup_updateVal_ne (l : List (String × α)) (k k' : String) (v : α)
    (h : k' ≠ k) : alookup (updateVal k v l) k' = alookup l k' := by
  induction l with
  | nil => rfl
  | cons p t ih =>
    obtain ⟨k1, v1⟩ := p
    rw [updateVal, List.map_cons]
    by_cases h1 : k1 = k
    · rw [if_pos h1]
      show alookup ((k, v) :: _) k' = _
      rw [alookup, if_neg (fun he => h he.symm), alookup, if_neg (by rw [h1]; exact fun he => h he.symm)]
      exact ih
    · rw [if_neg h1]
      show alookup ((k1, v1) :: updateVal k v t) k' = alookup ((k1, v1) :: t) k'
      rw [alookup, alookup, ih]

theorem alookup_of_eraseKey_nil (l : List (String × α)) (k : String)
    (h : eraseKey k l = []) (k' : String) (hk : k' ≠ k) : alookup l k' = none := by
  induction l with
  | nil => rfl
  | cons p t ih =>
    obtain ⟨k1, v1⟩ := p
    rw [eraseKey, List.filter_cons] at h
    by_cases h1 : k1 = k
    · have hb : ((k1, v1).1 != k) = false := by simpa using h1
      rw [hb] at h
      rw [alookup, if_neg (by rw [h1]; exact fun he => hk he.symm)]
      exact ih (by simpa [eraseKey] using h)
    · have hb : ((k1, v1).1 != k) = true := by simpa using h1
      rw [hb] at h
      cases h

/-- C10: deleting budget `(month, category)` removes that leaf; if the
month's category mapping becomes empty the month entry itself is removed
(no empty month containers remain, given none existed before); all other
months and categories are untouched; a missing path leaves the budget map
unchanged and reports "not found". -/
theorem c10_delete_budget (b : List (String × List (String × String)))
    (month category : String)
    (hne : ∀ m cs, alookup b m = some cs → cs ≠ []) :
    (∀ cats, alookup b month = some cats → (alookup cats category).isSome →
      (deleteBudget b month category).1 = true ∧
      pathLookup (deleteBudget b month category).2 month category = none ∧
      (∀ c', c' ≠ category →
        pathLookup (deleteBudget b month category).2 month c' = pathLookup b month c') ∧
      (∀ m', m' ≠ month →
        alookup (deleteBudget b month category).2 m' = alookup b m') ∧
      (eraseKey category cats = [] →
        alookup (deleteBudget b month category).2 month = none) ∧
      (∀ m' cs', alookup (deleteBudget b month category).2 m' = some cs' → cs' ≠ [])) ∧
    (pathLookup b month category = none →
      deleteBudget b month category = (false, b)) := by
  constructor
  · intro cats hm hsome
    have hdel : deleteBudget b month category =
        (if eraseKey category cats = [] then (true, eraseKey month b)
         else (true, updateVal month (eraseKey category cats) b)) := by
      rw [deleteBudget, hm]
      show (if (alookup cats category).isSome = true then
          (if eraseKey category cats = [] then (true, eraseKey month b)
           else (true, updateVal month (eraseKey category cats) b))
        else (false, b)) = _
      rw [if_pos hsome]
    by_cases hempty : eraseKey category cats = []
    · rw [hdel, if_pos hempty]
      refine ⟨rfl, ?_, ?_, ?_, fun _ => ?_, ?_⟩
      · show (alookup (eraseKey month b) month).bind _ = none
        rw [alookup_eraseKey_self]
        rfl
      · intro c' hc'
        show (alookup (eraseKey month b) month).bind _ = (alookup b month).bind _
        rw [alookup_eraseKey_self, hm]
        show none = alookup cats c'
        rw [alookup_of_eraseKey_nil cats category hempty c' hc']
      · intro m' hm'
        exact alookup_eraseKey_ne b month m' hm'
      · exact alookup_eraseKey_self b month
      · intro m' cs' hlk
        by_cases hmm : m' = month
        · rw [hmm, alookup_eraseKey_self] at hlk
          cases hlk
        · rw [alookup_eraseKey_ne b month m' hmm] at hlk
          exact hne m' cs' hlk
    · rw [hdel, if_neg hempty]
      have hupd : alookup (updateVal month (eraseKey category cats) b) month =
          some (eraseKey category cats) :=
        alookup_updateVal_self b month _ (by rw [hm]; rfl)
      refine ⟨rfl, ?_, ?_, ?_, fun h => absurd h hempty, ?_⟩
      · show (alookup (updateVal month (eraseKey category cats) b) month).bind _ = none
        rw [hupd]
        show alookup (eraseKey category cats) category = none
        exact alookup_eraseKey_self cats category
      · intro c' hc'
        show (alookup (updateVal month (eraseKey category cats) b) month).bind _ =
          (alookup b month).bind _
        rw [hupd, hm]
        show alookup (eraseKey category cats) c' = alookup cats c'
        exact alookup_eraseKey_ne cats category c' hc'
      · intro m' hm'
        exact alookup_updateVal_ne b month m' _ hm'
      · intro m' cs' hlk
        by_cases hmm : m' = month
        · rw [hmm, hupd] at hlk
          cases hlk
          exact hempty
        · rw [alookup_updateVal_ne b month m' _ hmm] at hlk
          exact hne m' cs' hlk
  · intro hnone
    rw [deleteBudget]
    cases hm : alookup b month with
    | none => rfl
    | some cats =>
      rw [pathLookup, hm] at hnone
      have hcat : alookup cats category = none := hnone
      show (if (alookup cats category).isSome = true then
          (if eraseKey category cats = [] then (true, eraseKey month b)
           else (true, updateVal month (eraseKey category cats) b))
        else (false, b)) = (false, b)
      rw [hcat]
      rfl

/-- Witness for C10: deleting the `food` budget of a month that also
budgets `rent` keeps the month with `rent` only; its hypotheses hold on
the concrete map. -/
theorem c10_witness :
    (∀ m cs, alookup [("2024-05", [("food", "100"), ("rent", "50")])] m = some cs →
      cs ≠ []) ∧
    (deleteBudget [("2024-05", [("food", "100"), ("rent", "50")])] "2024-05" "food").1
      = true ∧
    pathLookup (deleteBudget [("2024-05", [("food", "100"), ("rent", "50")])]
      "2024-05" "food").2 "2024-05" "food" = none ∧
    pathLookup (deleteBudget [("2024-05", [("food", "100"), ("rent", "50")])]
      "2024-05" "food").2 "2024-05" "rent" = some "50" := by
  have hne : ∀ m cs, alookup [("2024-05", [("food", "100"), ("rent", "50")])] m =
      some cs → cs ≠ [] := by
    intro m cs h
    rw [alookup] at h
    by_cases hm : "2024-05" = m
    · rw [if_pos hm] at h
      cases h
      simp
    · rw [if_neg hm] at h
      cases h
  have h := (c10_delete_budget [("2024-05", [("food", "100"), ("rent", "50")])]
    "2024-05" "food" hne).1 [("food", "100"), ("rent", "50")] (by decide) (by decide)
  refine ⟨hne, h.1, h.2.1, ?_⟩
  rw [h.2.2.1 "rent" (by decide)]
  decide

/-! ## Supporting facts: the report computation on its terminating paths

These are not claim theorems; they show the reporting embedding computes
the right totals and per-category sums on the paths where the code does
return (months without configured budgets). -/

theorem alookup_cons (k1 : String) (v1 : α) (t : List (String × α)) (key : String) :
    alookup ((k1, v1) :: t) key = if k1 = key then some v1 else alookup t key := rfl

theorem lookup_mapAdd_self (cats : List (String × Int)) (cat : String) (a v : Int)
    (h : alookup cats cat = some v) :
    alookup (cats.map (fun p => if p.1 = cat then (p.1, p.2 + a) else p)) cat =
      some (v + a) := by
  induction cats with
  | nil => cases h
  | cons p t ih =>
    obtain ⟨k1, v1⟩ := p
    rw [alookup_cons] at h
    rw [List.map_cons]
    by_cases h1 : k1 = cat
    · rw [if_pos h1] at h
      have hhead : (if (k1, v1).1 = cat then ((k1, v1).1, (k1, v1).2 + a) else (k1, v1)) =
          (k1, v1 + a) := by
        simp [h1]
      rw [hhead, alookup_cons, if_pos h1]
      injection h with hv
      rw [hv]
    · rw [if_neg h1] at h
      have hhead : (if (k1, v1).1 = cat then ((k1, v1).1, (k1, v1).2 + a) else (k1, v1)) =
          (k1, v1) := by
        simp [h1]
      rw [hhead, alookup_cons, if_neg h1]
      exact ih h

theorem lookup_mapAdd_ne (cats : List (String × Int)) (cat : String) (a : Int)
    (c' : String) (h : c' ≠ cat) :
    alookup (cats.map (fun p => if p.1 = cat then (p.1, p.2 + a) else p)) c' =
      alookup cats c' := by
  induction cats with
  | nil => rfl
  | cons p t ih =>
    obtain ⟨k1, v1⟩ := p
    rw [List.map_cons]
    by_cases h1 : k1 = cat
    · have hne : k1 ≠ c' := by
        rw [h1]
        exact fun he => h he.symm
      have hhead : (if (k1, v1).1 = cat then ((k1, v1).1, (k1, v1).2 + a) else (k1, v1)) =
          (k1, v1 + a) := by
        simp [h1]
      rw [hhead, alookup_cons, alookup_cons, if_neg hne, if_neg hne, ih]
    · have hhead : (if (k1, v1).1 = cat then ((k1, v1).1, (k1, v1).2 + a) else (k1, v1)) =
          (k1, v1) := by
        simp [h1]
      rw [hhead, alookup_cons, alookup_cons, ih]

theorem lookup_append_single_self (cats : List (String × Int)) (cat : String) (a : Int)
    (h : alookup cats cat = none) :
    alookup (cats ++ [(cat, a)]) cat = some a := by
  induction cats with
  | nil =>
    rw [List.nil_append, alookup_cons, if_pos rfl]
  | cons p t ih =>
    obtain ⟨k1, v1⟩ := p
    rw [alookup_cons] at h
    by_cases h1 : k1 = cat
    · rw [if_pos h1] at h
      cases h
    · rw [if_neg h1] at h
      rw [List.cons_append, alookup_cons, if_neg h1]
      exact ih h

theorem lookup_append_single_ne (cats : List (String × Int)) (cat : String) (a : Int)
    (c' : String) (h : c' ≠ cat) :
    alookup (cats ++ [(cat, a)]) c' = alookup cats c' := by
  induction cats with
  | nil =>
    rw [List.nil_append, alookup_cons, if_neg (fun he => h he.symm)]
  | cons p t ih =>
    obtain ⟨k1, v1⟩ := p
    rw [List.cons_append, alookup_cons, alookup_cons, ih]

theorem alookup_addToCats_self (cats : List (String × Int)) (cat : String) (a : Int) :
    alookup (addToCats cats cat a) cat = some ((alookup cats cat).getD 0 + a) := by
  unfold addToCats
  cases hv : alookup cats cat with
  | some v =>
    rw [if_pos (show (some v).isSome = true from rfl)]
    rw [lookup_mapAdd_self cats cat a v hv]
    rfl
  | none =>
    rw [if_neg (by simp)]
    rw [lookup_append_single_self cats cat a hv]
    show some a = some (0 + a)
    norm_num

theorem alookup_addToCats_ne (cats : List (String × Int)) (cat : String) (a : Int)
    (c' : String) (h : c' ≠ cat) :
    alookup (addToCats cats cat a) c' = alookup cats c' := by
  unfold addToCats
  by_cases hs : (alookup cats cat).isSome
  · rw [if_pos hs]
    exact lookup_mapAdd_ne cats cat a c' h
  · rw [if_neg hs]
    exact lookup_append_single_ne cats cat a c' h

/-- The running total a left fold of `addToCats` assigns to one category. -/
theorem foldl_addToCats_lookup (l : List Expense) (cat : String) :
    ∀ acc : List (String × Int),
    alookup (l.foldl (fun acc e => addToCats acc e.category e.amount) acc) cat =
      (if (alookup acc cat).isSome ∨ l.any (fun e => e.category == cat) then
        some ((alookup acc cat).getD 0 +
          ((l.filter (fun e => e.category == cat)).map Expense.amount).sum)
      else none) := by
  induction l with
  | nil =>
    intro acc
    rw [List.foldl_nil]
    cases hv : alookup acc cat with
    | some v => simp
    | none => simp
  | cons e t ih =>
    intro acc
    rw [List.foldl_cons, ih]
    by_cases hcat : e.category = cat
    · have hbeq : (e.category == cat) = true := by simpa using hcat
      rw [hcat, alookup_addToCats_self acc cat e.amount, List.filter_cons,
        List.any_cons, hbeq]
      simp only [Option.isSome_some, Option.getD_some, Bool.true_or, List.map_cons,
        List.sum_cons, eq_self_iff_true, true_or, or_true, if_true]
      congr 1
      ring
    · have hbeq : (e.category == cat) = false := by simpa using hcat
      rw [alookup_addToCats_ne acc e.category e.amount cat (fun he => hcat he.symm),
        List.filter_cons, List.any_cons, hbeq]
      simp only [Bool.false_or]
      rw [if_neg (show ¬(false = true) by simp)]

/-- The per-category map `get_monthly_report` builds assigns to each
category exactly the sum of the month\x27s amounts in that category, and has
no entry for an unused category. -/
theorem monthlyCategories_sums (l : List Expense) (cat : String) :
    alookup (monthlyCategories l) cat =
      (if l.any (fun e => e.category == cat) then
        some (((l.filter (fun e => e.category == cat)).map Expense.amount).sum)
      else none) := by
  unfold monthlyCategories
  rw [foldl_addToCats_lookup l cat []]
  by_cases h : l.any (fun e => e.category == cat) = true
  · rw [if_pos (Or.inr h), if_pos h]
    show some (0 + _) = _
    norm_num
  · rw [if_neg (by
      rintro (hs | ha)
      · simp [alookup] at hs
      · exact h ha), if_neg h]

/-- On a month with no configured budgets the report returns at any
nonzero recursion depth: the zero/empty report (no `budget_status` key)
when nothing matches, else the filtered records, their total, the
category sums, and an empty budget status. -/
theorem getMonthlyReportF_no_budgets (fuel : Nat) (cfg : Config) (es : List Expense)
    (month : String) (h : alookup cfg.budgets month = none) :
    getMonthlyReportF (fuel + 1) cfg es month =
      (if (es.filter (fun e => startsWithChars month.data e.date.data)).isEmpty then
        some ⟨0, [], [], none⟩
      else
        some ⟨((es.filter (fun e => startsWithChars month.data e.date.data)).map
            Expense.amount).sum,
          monthlyCategories (es.filter (fun e => startsWithChars month.data e.date.data)),
          es.filter (fun e => startsWithChars month.data e.date.data), some []⟩) := by
  rw [getMonthlyReportF]
  split
  · rfl
  · rw [h]

/-- `_get_budget_status` returns the empty mapping for a month with no
configured budgets (the terminating branch of C6's claim). -/
theorem getBudgetStatusF_no_budgets (fuel : Nat) (cfg : Config) (es : List Expense)
    (month : String) (h : alookup cfg.budgets month = none) :
    getBudgetStatusF fuel cfg es month = some [] := by
  rw [getBudgetStatusF, h]

/-! ## Chronological order is day-count order

`chronoLe` (lexicographic order on `(y, m, d)` triples, used in C8) agrees
with the order of elapsed-day counts `dayNumber` on calendar-valid dates,
so the C8 theorem really is about chronological order. -/

theorem isLeapYear_iff (y : Nat) :
    isLeapYear y = true ↔ ((y % 4 = 0 ∧ ¬(y % 100 = 0)) ∨ y % 400 = 0) := by
  unfold isLeapYear
  simp

theorem leapsBefore_succ (y : Nat) (hy : 1 ≤ y) :
    leapsBefore y = leapsBefore (y - 1) + (if isLeapYear y then 1 else 0) := by
  by_cases h : isLeapYear y = true
  · rw [if_pos h]
    rw [isLeapYear_iff] at h
    unfold leapsBefore
    omega
  · rw [if_neg h]
    rw [isLeapYear_iff] at h
    unfold leapsBefore
    omega

theorem leapsBefore_mono {n n' : Nat} (h : n ≤ n') : leapsBefore n ≤ leapsBefore n' := by
  induction n' with
  | zero =>
    have h0 : n = 0 := by omega
    rw [h0]
  | succ k ih =>
    rcases Nat.lt_or_ge n (k + 1) with hlt | hge
    · have h1 : leapsBefore n ≤ leapsBefore k := ih (by omega)
      have h2 := leapsBefore_succ (k + 1) (by omega)
      simp only [Nat.add_sub_cancel] at h2
      by_cases hlp : isLeapYear (k + 1) = true
      · rw [if_pos hlp] at h2
        omega
      · rw [if_neg hlp] at h2
        omega
    · have h0 : n = k + 1 := by omega
      rw [h0]

theorem daysInMonth_pos (y m : Nat) : 1 ≤ daysInMonth y m := by
  unfold daysInMonth
  split
  · split <;> omega
  · split <;> omega

theorem daysBeforeMonth_succ (y m : Nat) (hm : 1 ≤ m) :
    daysBeforeMonth y (m + 1) = daysBeforeMonth y m + daysInMonth y m := by
  obtain ⟨k, rfl⟩ : ∃ k, m = k + 1 := ⟨m - 1, by omega⟩
  rfl

theorem daysBeforeMonth_mono (y : Nat) {m m' : Nat} (h : m ≤ m') :
    daysBeforeMonth y m ≤ daysBeforeMonth y m' := by
  induction m' with
  | zero =>
    have : m = 0 := by omega
    rw [this]
  | succ k ih =>
    rcases Nat.lt_or_ge m (k + 1) with hlt | hge
    · have hk : m ≤ k := by omega
      rcases Nat.eq_zero_or_pos k with rfl | hkpos
      · have h0 : m = 0 := by omega
        rw [h0]
        exact Nat.le_refl 0
      · calc daysBeforeMonth y m ≤ daysBeforeMonth y k := ih hk
          _ ≤ daysBeforeMonth y (k + 1) := by
            rw [daysBeforeMonth_succ y k hkpos]
            omega
    · have : m = k + 1 := by omega
      rw [this]

theorem daysBeforeMonth_13 (y : Nat) :
    daysBeforeMonth y 13 = 365 + (if isLeapYear y then 1 else 0) := by
  by_cases h : isLeapYear y = true
  · simp [daysBeforeMonth, daysInMonth, h]
  · simp [daysBeforeMonth, daysInMonth, h]

theorem dayNumber_le_year_end (y m d : Nat) (hy : 1 ≤ y) (hm1 : 1 ≤ m) (hm : m ≤ 12)
    (hd : d ≤ daysInMonth y m) :
    dayNumber y m d ≤ 365 * y + leapsBefore y := by
  have h1 : daysBeforeMonth y m + d ≤ daysBeforeMonth y (m + 1) := by
    rw [daysBeforeMonth_succ y m hm1]
    omega
  have h2 : daysBeforeMonth y (m + 1) ≤ daysBeforeMonth y 13 :=
    daysBeforeMonth_mono y (by omega)
  have h3 := daysBeforeMonth_13 y
  have h4 := leapsBefore_succ y hy
  unfold dayNumber
  by_cases hleap : isLeapYear y = true
  · rw [hleap, if_pos rfl] at h3 h4
    omega
  · have hb : isLeapYear y = false := by
      revert hleap
      cases isLeapYear y <;> simp
    rw [hb] at h3 h4
    simp at h3 h4
    omega

theorem year_start_le_dayNumber (y m d : Nat) (hd : 1 ≤ d) :
    365 * (y - 1) + leapsBefore (y - 1) + 1 ≤ dayNumber y m d := by
  unfold dayNumber
  omega

theorem dayNumber_lt_of_chronoLt (y1 m1 d1 y2 m2 d2 : Nat)
    (hy1 : 1 ≤ y1) (hm1a : 1 ≤ m1) (hm1b : m1 ≤ 12) (hd1a : 1 ≤ d1)
    (hd1b : d1 ≤ daysInMonth y1 m1)
    (hy2 : 1 ≤ y2) (hm2a : 1 ≤ m2) (hm2b : m2 ≤ 12) (hd2a : 1 ≤ d2)
    (hd2b : d2 ≤ daysInMonth y2 m2)
    (h : y1 < y2 ∨ (y1 = y2 ∧ (m1 < m2 ∨ (m1 = m2 ∧ d1 < d2)))) :
    dayNumber y1 m1 d1 < dayNumber y2 m2 d2 := by
  rcases h with hy | ⟨rfl, hmd⟩
  · have h1 := dayNumber_le_year_end y1 m1 d1 hy1 hm1a hm1b hd1b
    have h2 := year_start_le_dayNumber y2 m2 d2 hd2a
    have h3 : leapsBefore y1 ≤ leapsBefore (y2 - 1) := leapsBefore_mono (by omega)
    have h4 : 365 * y1 ≤ 365 * (y2 - 1) := Nat.mul_le_mul_left 365 (by omega)
    omega
  · unfold dayNumber
    rcases hmd with hm | ⟨rfl, hd⟩
    · have h1 : daysBeforeMonth y1 m1 + d1 ≤ daysBeforeMonth y1 (m1 + 1) := by
        rw [daysBeforeMonth_succ y1 m1 hm1a]
        omega
      have h2 : daysBeforeMonth y1 (m1 + 1) ≤ daysBeforeMonth y1 m2 :=
        daysBeforeMonth_mono y1 (by omega)
      omega
    · omega

/-- On calendar-valid dates, the lexicographic triple order `chronoLe`
coincides with elapsed-day-count order. -/
theorem chronoLe_iff_dayNumber_le (y1 m1 d1 y2 m2 d2 : Nat)
    (hy1 : 1 ≤ y1) (hm1a : 1 ≤ m1) (hm1b : m1 ≤ 12) (hd1a : 1 ≤ d1)
    (hd1b : d1 ≤ daysInMonth y1 m1)
    (hy2 : 1 ≤ y2) (hm2a : 1 ≤ m2) (hm2b : m2 ≤ 12) (hd2a : 1 ≤ d2)
    (hd2b : d2 ≤ daysInMonth y2 m2) :
    chronoLe (y1, m1, d1) (y2, m2, d2) ↔ dayNumber y1 m1 d1 ≤ dayNumber y2 m2 d2 := by
  unfold chronoLe
  simp only
  constructor
  · intro h
    rcases h with hy | ⟨rfl, hm | ⟨rfl, hd⟩⟩
    · exact Nat.le_of_lt (dayNumber_lt_of_chronoLt y1 m1 d1 y2 m2 d2 hy1 hm1a hm1b hd1a
        hd1b hy2 hm2a hm2b hd2a hd2b (Or.inl hy))
    · exact Nat.le_of_lt (dayNumber_lt_of_chronoLt y1 m1 d1 y1 m2 d2 hy1 hm1a hm1b hd1a
        hd1b hy2 hm2a hm2b hd2a hd2b (Or.inr ⟨rfl, Or.inl hm⟩))
    · rcases Nat.lt_or_ge d1 d2 with hlt | hge
      · exact Nat.le_of_lt (dayNumber_lt_of_chronoLt y1 m1 d1 y1 m1 d2 hy1 hm1a hm1b hd1a
          hd1b hy2 hm2a hm2b hd2a hd2b (Or.inr ⟨rfl, Or.inr ⟨rfl, hlt⟩⟩))
      · have : d1 = d2 := by omega
        rw [this]
  · intro h
    by_contra hc
    have hrev : y2 < y1 ∨ (y2 = y1 ∧ (m2 < m1 ∨ (m2 = m1 ∧ d2 < d1))) := by omega
    have hstrict := dayNumber_lt_of_chronoLt y2 m2 d2 y1 m1 d1 hy2 hm2a hm2b hd2a hd2b
      hy1 hm1a hm1b hd1a hd1b hrev
    omega

/-- `validate_date` on a canonical padded rendering accepts exactly the
calendar-valid dates. -/
theorem validateDate_mkDateStr_iff (y m d : Nat) (hy : y < 10000) (hm : m < 100)
    (hd : d < 100) :
    validateDate (mkDateStr y m d) = true ↔
      (1 ≤ y ∧ 1 ≤ m ∧ m ≤ 12 ∧ 1 ≤ d ∧ d ≤ daysInMonth y m) := by
  unfold validateDate
  rw [parseDate_mkDateStr y m d hy hm hd]
  simp
  tauto

/-- For accepted zero-padded date strings, Python string comparison is
exactly elapsed-day-count comparison (combining the digit-string lemma
with the rata-die correspondence). -/
theorem lexLe_iff_dayNumber_on_padded (s1 s2 : String)
    (hv1 : validateDate s1 = true) (hp1 : isPaddedDate s1 = true)
    (hv2 : validateDate s2 = true) (hp2 : isPaddedDate s2 = true) :
    lexLe s1.data s2.data = true ↔
      dayNumber (dateOf s1).1 (dateOf s1).2.1 (dateOf s1).2.2 ≤
        dayNumber (dateOf s2).1 (dateOf s2).2.1 (dateOf s2).2.2 := by
  obtain ⟨y1, m1, d1, hy1, hm1, hd1, rfl⟩ := isPaddedDate_elim hp1
  obtain ⟨y2, m2, d2, hy2, hm2, hd2, rfl⟩ := isPaddedDate_elim hp2
  have hb1 := (validateDate_mkDateStr_iff y1 m1 d1 hy1 hm1 hd1).mp hv1
  have hb2 := (validateDate_mkDateStr_iff y2 m2 d2 hy2 hm2 hd2).mp hv2
  have p1 := parseDate_mkDateStr y1 m1 d1 hy1 hm1 hd1
  have p2 := parseDate_mkDateStr y2 m2 d2 hy2 hm2 hd2
  unfold dateOf
  rw [p1, p2]
  simp only [Option.getD_some]
  rw [lexLe_mkDateStr y1 m1 d1 y2 m2 d2 hy1 hm1 hd1 hy2 hm2 hd2]
  have hch := chronoLe_iff_dayNumber_le y1 m1 d1 y2 m2 d2
    hb1.1 hb1.2.1 hb1.2.2.1 hb1.2.2.2.1 hb1.2.2.2.2
    hb2.1 hb2.2.1 hb2.2.2.1 hb2.2.2.2.1 hb2.2.2.2.2
  unfold chronoLe at hch
  simp only at hch
  rw [← hch]

end ExpenseTracker
